import Mathlib

/-!
# Histogram binning of `lcelib/misc/Bindata.H` and the stream range of `util/range.cpp`

A shallow embedding of the binning routines of `Bindata.H` and of the class
`RangeOverStream` of `range.cpp`, with proofs of the properties stated about them.

Conventions of the embedding of `Bindata.H`.

* A C `double` is an exact number, rounding is not modelled: a rational number (`ℚ`)
  wherever the code is run on data, a real number (`ℝ`) for the properties of `logspace`
  that rest on roots.
* A `double *` together with its element count is a `List ℚ`; reading
  `p[i]` is `p.getD i 0`, and every theorem that reads `bin_edges[0..N]`
  assumes `bin_edges.length = number_of_bins + 1`.
* A floating-point division is `fdiv`, which yields `none` for a zero divisor
  (the non-finite results `inf` and `NaN` of the C code); `none` propagates
  through later arithmetic as `NaN` and `inf` do. A cell of a fresh array that the code
  never writes is `none` as well.
* The library functions `pow` and `sqrt` are parameters of the routines that call them.
* A `for` loop that leaves through `break` at the first index whose test
  succeeds is `List.find?` over `List.range number_of_bins`.
* The number that a routine prints as "lost" is returned next to its array, and so is
  the message that `spacing` writes to the error stream.

The conventions for `range.cpp` stand with its definitions.
-/

namespace Bindata

/-! ## Definitions -/

/-- Division of two doubles; `none` is the non-finite result of dividing by zero.
The number type is a parameter: it is `ℚ` wherever the code is run on data, and `ℝ` where
a property of the library functions `pow` and `sqrt` is needed. -/
def fdiv {K : Type} [Field K] [DecidableEq K] (a b : K) : Option K :=
  if b = 0 then none else some (a / b)

/-- The function `linspace` (Bindata.H:55-65): `values[i] = start + i*interval`
with `interval = (end-start)/number_of_bins`, for `i = 0 .. number_of_bins`. -/
def linspace (start end_ : ℚ) (number_of_bins : Nat) : List (Option ℚ) :=
  let interval := fdiv (end_ - start) (number_of_bins : ℚ)
  (List.range (number_of_bins + 1)).map
    (fun (i : Nat) => interval.map (fun iv => start + (i : ℚ) * iv))

/-- The statement `count[i] = count[i] + 1`. -/
def incr (count : List ℚ) (i : Nat) : List ℚ :=
  count.set i (count.getD i 0 + 1)

/-- The body of the `j` loop of `histc` in the "backward" branch (Bindata.H:157-167). -/
def histc_backward_step (bin_edges : List ℚ) (number_of_bins : Nat)
    (st : List ℚ × Nat) (xj : ℚ) : List ℚ × Nat :=
  if xj ≤ bin_edges.getD 0 0 ∨ xj > bin_edges.getD number_of_bins 0 then
    (st.1, st.2 + 1)
  else
    match (List.range number_of_bins).find?
        (fun i => decide (bin_edges.getD i 0 < xj ∧ bin_edges.getD (i + 1) 0 ≥ xj)) with
    | some i => (incr st.1 i, st.2)
    | none => st

/-- The body of the `j` loop of `histc` in the "forward" branch (Bindata.H:172-182). -/
def histc_forward_step (bin_edges : List ℚ) (number_of_bins : Nat)
    (st : List ℚ × Nat) (xj : ℚ) : List ℚ × Nat :=
  if xj ≥ bin_edges.getD number_of_bins 0 ∨ xj < bin_edges.getD 0 0 then
    (st.1, st.2 + 1)
  else
    match (List.range number_of_bins).find?
        (fun i => decide (bin_edges.getD i 0 ≤ xj ∧ bin_edges.getD (i + 1) 0 > xj)) with
    | some i => (incr st.1 i, st.2)
    | none => st

/-- The function `histc` (Bindata.H:144-191). The result is the array `count`
together with the value of `lost` that the function prints. -/
def histc (count_type : String) (bin_edges x : List ℚ) (number_of_bins : Nat) :
    List ℚ × Nat :=
  let count := List.replicate number_of_bins (0 : ℚ)
  if count_type = "backward" then
    x.foldl (histc_backward_step bin_edges number_of_bins) (count, 0)
  else if count_type = "forward" then
    x.foldl (histc_forward_step bin_edges number_of_bins) (count, 0)
  else
    (count, 0)

/-- The function `diff` (Bindata.H:198-206). -/
def diff (bin_edges : List ℚ) (number_of_bins : Nat) : List ℚ :=
  (List.range number_of_bins).map
    (fun i => bin_edges.getD (i + 1) 0 - bin_edges.getD i 0)

/-- The density overload of `meansc` (Bindata.H:220-243). -/
def meansc (count_type : String) (bin_edges x : List ℚ) (number_of_bins : Nat) :
    List (Option ℚ) :=
  let n := (histc count_type bin_edges x number_of_bins).1
  let diff_bin_edges := diff bin_edges number_of_bins
  let unnorm_dens := (List.range number_of_bins).map
    (fun i => fdiv (n.getD i 0) (diff_bin_edges.getD i 0))
  let norm_const := (List.range number_of_bins).foldl
    (fun acc i => acc + n.getD i 0) (0 : ℚ)
  (List.range number_of_bins).map
    (fun i => (unnorm_dens.getD i none).bind (fun u => fdiv u norm_const))

/-- The tables `counterY`, `sum` and the counter `lost` of the (x, y) overload of `meansc`. -/
structure MeanTables where
  counterY : List ℚ
  sum : List ℚ
  lost : Nat

/-- The body of the `j` loop of the (x, y) overload of `meansc` in the
"backward" branch (Bindata.H:264-274): the `i` loop stops at the first index
at which one of its two tests succeeds, the "lost" test being tried first. -/
def meansc_backward_step (bin_edges : List ℚ) (number_of_bins : Nat)
    (st : MeanTables) (xy : ℚ × ℚ) : MeanTables :=
  match (List.range number_of_bins).find?
      (fun i => decide (xy.1 ≤ bin_edges.getD 0 0 ∨
        (bin_edges.getD i 0 < xy.1 ∧ bin_edges.getD (i + 1) 0 ≥ xy.1))) with
  | some i =>
    if xy.1 ≤ bin_edges.getD 0 0 then
      { st with lost := st.lost + 1 }
    else
      { st with counterY := incr st.counterY i,
                sum := st.sum.set i (st.sum.getD i 0 + xy.2) }
  | none => st

/-- The body of the `j` loop of the (x, y) overload of `meansc` in the
"forward" branch (Bindata.H:279-289). -/
def meansc_forward_step (bin_edges : List ℚ) (number_of_bins : Nat)
    (st : MeanTables) (xy : ℚ × ℚ) : MeanTables :=
  match (List.range number_of_bins).find?
      (fun i => decide (xy.1 ≥ bin_edges.getD number_of_bins 0 ∨
        (bin_edges.getD i 0 ≤ xy.1 ∧ bin_edges.getD (i + 1) 0 > xy.1))) with
  | some i =>
    if xy.1 ≥ bin_edges.getD number_of_bins 0 then
      { st with lost := st.lost + 1 }
    else
      { st with counterY := incr st.counterY i,
                sum := st.sum.set i (st.sum.getD i 0 + xy.2) }
  | none => st

/-- The "Counting" part of the (x, y) overload of `meansc` (Bindata.H:256-293);
`x[j]` and `y[j]` are read together for `j = 0 .. number_of_values - 1`. -/
def meansc_counting (count_type : String) (bin_edges x y : List ℚ)
    (number_of_bins : Nat) : MeanTables :=
  let init : MeanTables :=
    { counterY := List.replicate number_of_bins 0,
      sum := List.replicate number_of_bins 0,
      lost := 0 }
  if count_type = "backward" then
    (x.zip y).foldl (meansc_backward_step bin_edges number_of_bins) init
  else if count_type = "forward" then
    (x.zip y).foldl (meansc_forward_step bin_edges number_of_bins) init
  else
    init

/-- The (x, y) overload of `meansc` (Bindata.H:248-306): the array `bin_means`
together with the value of `lost` that the function prints. -/
def meansc_xy (count_type : String) (bin_edges x y : List ℚ)
    (number_of_bins : Nat) : List (Option ℚ) × Nat :=
  let t := meansc_counting count_type bin_edges x y number_of_bins
  ((List.range number_of_bins).map
      (fun i => if t.counterY.getD i 0 ≠ 0
        then fdiv (t.sum.getD i 0) (t.counterY.getD i 0) else some 0),
    t.lost)

/-- The function `giveBinCenters(bin_edges, number_of_bins)` (Bindata.H:109-115);
the divisor is the literal 2, so the division is an ordinary one. -/
def giveBinCenters (bin_edges : List ℚ) (number_of_bins : Nat) : List ℚ :=
  (List.range number_of_bins).map
    (fun i => (bin_edges.getD i 0 + bin_edges.getD (i + 1) 0) / 2)

/-- The function `giveBinCenters(bin_type, bin_edges, number_of_bins)`
(Bindata.H:123-134). `sqrt` stands for the library square root (`none` for a result
that is not a finite number); a cell of the fresh array `bin_centers` that is never
written is `none`. -/
def giveBinCenters_type (sqrt : ℚ → Option ℚ) (bin_type : String) (bin_edges : List ℚ)
    (number_of_bins : Nat) : List (Option ℚ) :=
  let bin_centers : List (Option ℚ) := List.replicate number_of_bins none
  if bin_type = "lin" then
    (giveBinCenters bin_edges number_of_bins).map some
  else if bin_type = "log" then
    (List.range number_of_bins).map
      (fun i => (fdiv (bin_edges.getD (i + 1) 0) (bin_edges.getD i 0)).bind
        (fun q => (sqrt q).map (fun r => bin_edges.getD i 0 + r)))
  else
    bin_centers


/-- The function `logspace` (Bindata.H:73-83). `pow` stands for the library power
function (`none` for a result that is not a finite number). The array `values` has
`number_of_bins + 1` cells; a cell that is never written is `none`, and a write past the
last cell, which happens only for `number_of_bins = 0`, is dropped. -/
def logspace {K : Type} [Field K] [DecidableEq K] (pow : K → K → Option K)
    (start end_ : K) (number_of_bins : Nat) : List (Option K) :=
  let values : List (Option K) := List.replicate (number_of_bins + 1) none
  let root := fdiv (1 : K) (number_of_bins : K)
  let values := values.set 0 (some start)
  let values := values.set 1
    (root.bind (fun r => (pow start ((number_of_bins : K) - 1)).bind
      (fun p => pow (p * end_) r)))
  (List.range' 2 (number_of_bins - 1)).foldl
    (fun values i => values.set i
      ((values.getD (i - 1) none).bind (fun a =>
        (values.getD (i - 2) none).bind (fun b => fdiv (a * a) b))))
    values

/-- The messages that `spacing` writes to the error stream: `nonPositiveStart` is
"You have specified a non-positive bin_start_edge.", `wrongBinType` is the message that
the bin type is missing or wrong and has to be log or lin. -/
inductive Diagnostic where
  | nonPositiveStart
  | wrongBinType
  deriving DecidableEq

/-- The function `spacing` (Bindata.H:90-106): the returned array together with the
message written to the error stream, if any. The fresh array `bin_edges` is returned
unwritten (`none` in every cell) when the bin type is not recognised. -/
def spacing (pow : ℚ → ℚ → Option ℚ) (bin_type : String)
    (bin_start_edge bin_end_edge : ℚ) (number_of_bins : Nat) :
    List (Option ℚ) × Option Diagnostic :=
  let bin_edges : List (Option ℚ) := List.replicate (number_of_bins + 1) none
  if bin_type = "lin" ∨ bin_type = "linear" then
    (linspace bin_start_edge bin_end_edge number_of_bins, none)
  else if bin_type = "log" ∨ bin_type = "logarithmic" then
    (logspace pow bin_start_edge bin_end_edge number_of_bins,
      if bin_start_edge ≤ 0 then some Diagnostic.nonPositiveStart else none)
  else
    (bin_edges, some Diagnostic.wrongBinType)

/-- The library `pow` on the rationals for integer exponents, where its value is a
rational number: `x` to the power `k`, and no finite number for a zero base with a
negative exponent. For the other exponents the value is irrational in general and this
function, which serves to run `logspace` on data, gives `none`. -/
def powInt (x y : ℚ) : Option ℚ :=
  if y.den = 1 then
    if x = 0 ∧ y.num < 0 then none else some (x ^ y.num)
  else none

/-- The sample `v` lies in bin `i` under the inclusion policy: `edge[i] ≤ v < edge[i+1]`
for "forward", `edge[i] < v ≤ edge[i+1]` for "backward". -/
def inBin (count_type : String) (bin_edges : List ℚ) (i : Nat) (v : ℚ) : Bool :=
  if count_type = "backward" then
    decide (bin_edges.getD i 0 < v ∧ v ≤ bin_edges.getD (i + 1) 0)
  else
    decide (bin_edges.getD i 0 ≤ v ∧ v < bin_edges.getD (i + 1) 0)

/-- The sample `v` lies outside the edge span under the policy's exclusion rule:
`v < edge[0]` or `v ≥ edge[N]` for "forward", `v ≤ edge[0]` or `v > edge[N]` for "backward". -/
def outOfSpan (count_type : String) (bin_edges : List ℚ) (number_of_bins : Nat)
    (v : ℚ) : Bool :=
  if count_type = "backward" then
    decide (v ≤ bin_edges.getD 0 0 ∨ v > bin_edges.getD number_of_bins 0)
  else
    decide (v < bin_edges.getD 0 0 ∨ v ≥ bin_edges.getD number_of_bins 0)

/-! ## Auxiliary definitions used in the proofs -/

/-- Adding the weight `p.2` to the cell chosen for `p.1`, when one is chosen. -/
def wstep (pick : ℚ → Option Nat) (c : List ℚ) (p : ℚ × ℚ) : List ℚ :=
  match pick p.1 with
  | some i => c.set i (c.getD i 0 + p.2)
  | none => c

/-- The bin that `histc` increments for the sample `v`, if any. -/
def pickH (count_type : String) (bin_edges : List ℚ) (number_of_bins : Nat)
    (v : ℚ) : Option Nat :=
  if outOfSpan count_type bin_edges number_of_bins v then none
  else (List.range number_of_bins).find? (fun i => inBin count_type bin_edges i v)
/-- The "lost" test inside the `i` loop of the (x, y) overload of `meansc`:
`v ≤ edge[0]` under "backward", `v ≥ edge[N]` under "forward". -/
def lostM (count_type : String) (bin_edges : List ℚ) (number_of_bins : Nat)
    (v : ℚ) : Bool :=
  if count_type = "backward" then decide (v ≤ bin_edges.getD 0 0)
  else decide (v ≥ bin_edges.getD number_of_bins 0)

/-- The bin whose tables the (x, y) overload of `meansc` updates for the sample `v`, if any. -/
def pickM (count_type : String) (bin_edges : List ℚ) (number_of_bins : Nat)
    (v : ℚ) : Option Nat :=
  match (List.range number_of_bins).find?
      (fun i => lostM count_type bin_edges number_of_bins v || inBin count_type bin_edges i v) with
  | some i => if lostM count_type bin_edges number_of_bins v then none else some i
  | none => none

end Bindata

namespace amd

/-! ## Definitions: `RangeOverStream` of `util/range.cpp`

The stream is the list of its characters that have not been extracted yet; it is taken
to be in good state when the range is constructed. Its end-of-file and failure flags
are then raised only once this list is empty, and `peek` answers `EOF` when the list is
empty or a flag is raised, so the test `istr.peek() == EOF` is the test that the list is
empty. A `std::string` is a list of characters. -/

/-- The call `getline(istr, line, delim)`: the characters before the first `delim`
become the line, the delimiter itself is extracted and dropped, and without a delimiter
the line takes the rest of the stream. The result is the line and the stream left. -/
def getline (istr : List Char) (delim : Char) : List Char × List Char :=
  match istr with
  | [] => ([], [])
  | c :: rest =>
    if c = delim then ([], rest)
    else ((c :: (getline rest delim).1), (getline rest delim).2)

/-- The loop of `nextLine` for several delimiters (range.cpp:17-22): characters are
taken until one is found by `strchr(delims, c)`, which also finds the terminating null
character of `delims`. The result is the line and the stream left. -/
def readUntil (istr : List Char) (delims : List Char) : List Char × List Char :=
  match istr with
  | [] => ([], [])
  | c :: rest =>
    if c ∈ delims ∨ c = Char.ofNat 0 then ([], rest)
    else ((c :: (readUntil rest delims).1), (readUntil rest delims).2)

/-- The members of `RangeOverStream`. -/
structure RangeOverStream where
  istr : List Char
  delims : List Char
  isEmpty : Bool
  currentLine : List Char

/-- The method `RangeOverStream::nextLine` (range.cpp:12-23). -/
def RangeOverStream.nextLine (r : RangeOverStream) : RangeOverStream :=
  if r.delims.length = 1 then
    { r with istr := (getline r.istr (r.delims.getD 0 (Char.ofNat 0))).2,
             currentLine := (getline r.istr (r.delims.getD 0 (Char.ofNat 0))).1 }
  else
    { r with istr := (readUntil r.istr r.delims).2,
             currentLine := (readUntil r.istr r.delims).1 }

/-- The constructor of `RangeOverStream` (range.cpp:25-29); `none` when the assertion
that `delims` is not empty fails. -/
def RangeOverStream.construct (istr : List Char) (delims : List Char) :
    Option RangeOverStream :=
  if delims = [] then none
  else some (RangeOverStream.nextLine
    { istr := istr, delims := delims, isEmpty := false, currentLine := [] })

/-- The method `RangeOverStream::empty` (range.cpp:31-33). -/
def RangeOverStream.empty (r : RangeOverStream) : Bool :=
  r.isEmpty

/-- The method `RangeOverStream::front` (range.cpp:35-37). -/
def RangeOverStream.front (r : RangeOverStream) : List Char :=
  r.currentLine

/-- The method `RangeOverStream::popFront` (range.cpp:39-46). -/
def RangeOverStream.popFront (r : RangeOverStream) : RangeOverStream :=
  if r.istr = [] then
    { r with isEmpty := true, currentLine := [] }
  else
    r.nextLine

/-- The iteration over a range: while `empty()` is false, read `front()` and call
`popFront()`. The items read are returned; `none` when the fuel, which bounds the
number of times `empty()` is asked, runs out. -/
def drain : Nat → RangeOverStream → Option (List (List Char))
  | 0, _ => none
  | fuel + 1, r =>
    if r.empty then some []
    else (drain fuel r.popFront).map (fun items => r.front :: items)

/-- The pieces of `s` split on `d`, without the final empty piece when `s` ends with `d`. -/
def pieces (s : List Char) (d : Char) : List (List Char) :=
  if s.getLast? = some d then (s.splitOn d).dropLast else s.splitOn d

/-- The pieces of `s`, by recursion on `s`. -/
def piecesRec (d : Char) : List Char → List (List Char)
  | [] => [[]]
  | c :: t =>
    if c = d then (if t = [] then [[]] else [] :: piecesRec d t)
    else (piecesRec d t).modifyHead (fun l => c :: l)

end amd

namespace Bindata

/-! ## Lemmas on the tables filled by the loops -/

theorem getD_set_lt (c : List ℚ) (k i : Nat) (a : ℚ) (hi : i < c.length) :
    (c.set k a).getD i 0 = if k = i then a else c.getD i 0 := by
  simp only [List.getD_eq_getElem?_getD, List.getElem?_set]
  split_ifs with h1 h2
  · rfl
  · omega
  · rfl

theorem sum_set_lt (c : List ℚ) (k : Nat) (a : ℚ) (hk : k < c.length) :
    (c.set k a).sum = c.sum - c.getD k 0 + a := by
  induction c generalizing k with
  | nil => simp at hk
  | cons b c ih =>
    cases k with
    | zero => simp; ring
    | succ k =>
      simp only [List.length_cons, Nat.add_lt_add_iff_right] at hk
      simp only [List.set_cons_succ, List.sum_cons, List.getD_cons_succ, ih k hk]
      ring

theorem wfold_length (pick : ℚ → Option Nat) (l : List (ℚ × ℚ)) (c : List ℚ) :
    (l.foldl (wstep pick) c).length = c.length := by
  induction l generalizing c with
  | nil => rfl
  | cons p l ih =>
    rw [List.foldl_cons, ih]
    unfold wstep
    split <;> simp

theorem wfold_getD (pick : ℚ → Option Nat) (l : List (ℚ × ℚ)) (c : List ℚ)
    (i : Nat) (hi : i < c.length) :
    (l.foldl (wstep pick) c).getD i 0 =
      c.getD i 0 + ((l.filter (fun p => pick p.1 == some i)).map Prod.snd).sum := by
  induction l generalizing c with
  | nil => simp
  | cons p l ih =>
    have hlen : i < (wstep pick c p).length := by
      unfold wstep; split <;> simpa using hi
    rw [List.foldl_cons, ih _ hlen]
    unfold wstep
    cases hp : pick p.1 with
    | none => simp [List.filter_cons, hp]
    | some k =>
      rw [getD_set_lt c k i _ hi]
      by_cases hki : k = i
      · subst hki
        simp [List.filter_cons, hp]; ring
      · simp [List.filter_cons, hp, hki]

theorem wfold_sum (pick : ℚ → Option Nat) (l : List (ℚ × ℚ)) (c : List ℚ)
    (hpick : ∀ v i, pick v = some i → i < c.length) :
    (l.foldl (wstep pick) c).sum =
      c.sum + ((l.filter (fun p => (pick p.1).isSome)).map Prod.snd).sum := by
  induction l generalizing c with
  | nil => simp
  | cons p l ih =>
    have hlen : (wstep pick c p).length = c.length := by
      unfold wstep; split <;> simp
    rw [List.foldl_cons, ih _ (by rw [hlen]; exact hpick)]
    unfold wstep
    cases hp : pick p.1 with
    | none => simp [List.filter_cons, hp]
    | some k =>
      rw [sum_set_lt c k _ (hpick _ _ hp)]
      simp [List.filter_cons, hp]; ring

theorem unit_weight_sum (q : ℚ → Bool) (x : List ℚ) :
    (((x.map (fun v => (v, (1 : ℚ)))).filter (fun p => q p.1)).map Prod.snd).sum
      = (x.countP q : ℚ) := by
  induction x with
  | nil => simp
  | cons v x ih =>
    by_cases h : q v = true
    · simp only [List.map_cons, List.filter_cons, h, if_true, List.sum_cons, ih,
        List.countP_cons_of_pos]
      push_cast; ring
    · rw [List.countP_cons_of_neg _ _ h, ← ih]
      simp [List.filter_cons, h]

/-! ## The loops of `histc` as tallies -/

theorem inBin_forward (e : List ℚ) (i : Nat) (v : ℚ) :
    inBin "forward" e i v = decide (e.getD i 0 ≤ v ∧ e.getD (i + 1) 0 > v) := by
  simp [inBin]

theorem inBin_backward (e : List ℚ) (i : Nat) (v : ℚ) :
    inBin "backward" e i v = decide (e.getD i 0 < v ∧ e.getD (i + 1) 0 ≥ v) := by
  simp [inBin]

theorem outOfSpan_forward (e : List ℚ) (N : Nat) (v : ℚ) :
    outOfSpan "forward" e N v = decide (v ≥ e.getD N 0 ∨ v < e.getD 0 0) := by
  simp [outOfSpan, or_comm]

theorem outOfSpan_backward (e : List ℚ) (N : Nat) (v : ℚ) :
    outOfSpan "backward" e N v = decide (v ≤ e.getD 0 0 ∨ v > e.getD N 0) := by
  simp [outOfSpan]

theorem histc_forward_step_eq (e : List ℚ) (N : Nat) (st : List ℚ × Nat) (v : ℚ) :
    histc_forward_step e N st v =
      (wstep (pickH "forward" e N) st.1 (v, 1),
        st.2 + if outOfSpan "forward" e N v then 1 else 0) := by
  unfold histc_forward_step pickH wstep
  simp only [inBin_forward, outOfSpan_forward]
  by_cases h : v ≥ e.getD N 0 ∨ v < e.getD 0 0
  · simp only [h, if_true, decide_True]
  · simp only [h, if_false, decide_False]
    cases hf : List.find? (fun i => decide (e.getD i 0 ≤ v ∧ e.getD (i + 1) 0 > v))
        (List.range N) with
    | none => simp
    | some i => simp [incr]

theorem histc_backward_step_eq (e : List ℚ) (N : Nat) (st : List ℚ × Nat) (v : ℚ) :
    histc_backward_step e N st v =
      (wstep (pickH "backward" e N) st.1 (v, 1),
        st.2 + if outOfSpan "backward" e N v then 1 else 0) := by
  unfold histc_backward_step pickH wstep
  simp only [inBin_backward, outOfSpan_backward]
  by_cases h : v ≤ e.getD 0 0 ∨ v > e.getD N 0
  · simp only [h, if_true, decide_True]
  · simp only [h, if_false, decide_False]
    cases hf : List.find? (fun i => decide (e.getD i 0 < v ∧ e.getD (i + 1) 0 ≥ v))
        (List.range N) with
    | none => simp
    | some i => simp [incr]

theorem fold_pair_eq (f : List ℚ × Nat → ℚ → List ℚ × Nat) (pick : ℚ → Option Nat)
    (q : ℚ → Bool)
    (hf : ∀ st v, f st v = (wstep pick st.1 (v, 1), st.2 + if q v then 1 else 0))
    (x : List ℚ) (st : List ℚ × Nat) :
    x.foldl f st =
      ((x.map (fun v => (v, (1 : ℚ)))).foldl (wstep pick) st.1, st.2 + x.countP q) := by
  induction x generalizing st with
  | nil => simp
  | cons v x ih =>
    rw [List.foldl_cons, ih, hf]
    by_cases h : q v = true
    · simp [h]; omega
    · simp [h]

theorem histc_eq (ct : String) (hct : ct = "forward" ∨ ct = "backward")
    (e x : List ℚ) (N : Nat) :
    histc ct e x N =
      ((x.map (fun v => (v, (1 : ℚ)))).foldl (wstep (pickH ct e N))
          (List.replicate N 0),
        x.countP (outOfSpan ct e N)) := by
  rcases hct with rfl | rfl
  · have := fold_pair_eq _ _ _ (histc_forward_step_eq e N) x (List.replicate N 0, 0)
    simpa [histc] using this
  · have := fold_pair_eq _ _ _ (histc_backward_step_eq e N) x (List.replicate N 0, 0)
    simpa [histc] using this

/-! ## Existence of a matching bin inside the span -/

theorem exists_bin_forward (f : Nat → ℚ) (v : ℚ) (N : Nat)
    (h0 : f 0 ≤ v) (hN : v < f N) : ∃ i, i < N ∧ f i ≤ v ∧ v < f (i + 1) := by
  induction N with
  | zero => exact absurd hN (not_lt.mpr h0)
  | succ n ih =>
    by_cases h : v < f n
    · obtain ⟨i, hi, hb⟩ := ih h
      exact ⟨i, Nat.lt_succ_of_lt hi, hb⟩
    · exact ⟨n, Nat.lt_succ_self n, not_lt.mp h, hN⟩

theorem exists_bin_backward (f : Nat → ℚ) (v : ℚ) (N : Nat)
    (h0 : f 0 < v) (hN : v ≤ f N) : ∃ i, i < N ∧ f i < v ∧ v ≤ f (i + 1) := by
  induction N with
  | zero => exact absurd h0 (not_lt.mpr hN)
  | succ n ih =>
    by_cases h : v ≤ f n
    · obtain ⟨i, hi, hb⟩ := ih h
      exact ⟨i, Nat.lt_succ_of_lt hi, hb⟩
    · exact ⟨n, Nat.lt_succ_self n, not_le.mp h, hN⟩

theorem exists_inBin (ct : String) (hct : ct = "forward" ∨ ct = "backward")
    (e : List ℚ) (N : Nat) (v : ℚ) (h : outOfSpan ct e N v = false) :
    ∃ i, i < N ∧ inBin ct e i v = true := by
  rcases hct with rfl | rfl
  · rw [outOfSpan_forward, decide_eq_false_iff_not, not_or, not_le, not_lt] at h
    obtain ⟨i, hi, h1, h2⟩ := exists_bin_forward (fun i => e.getD i 0) v N h.2 h.1
    exact ⟨i, hi, by rw [inBin_forward]; exact decide_eq_true ⟨h1, h2⟩⟩
  · rw [outOfSpan_backward, decide_eq_false_iff_not, not_or, not_le, not_lt] at h
    obtain ⟨i, hi, h1, h2⟩ := exists_bin_backward (fun i => e.getD i 0) v N h.1 h.2
    exact ⟨i, hi, by rw [inBin_backward]; exact decide_eq_true ⟨h1, h2⟩⟩

theorem find?_range_some (p : Nat → Bool) (N i : Nat)
    (h : (List.range N).find? p = some i) : i < N ∧ p i = true :=
  ⟨List.mem_range.mp (List.mem_of_find?_eq_some h), List.find?_some h⟩

theorem pickH_lt (ct : String) (e : List ℚ) (N : Nat) (v : ℚ) (i : Nat)
    (h : pickH ct e N v = some i) : i < N := by
  unfold pickH at h
  split at h
  · exact absurd h (by simp)
  · exact (find?_range_some _ N i h).1

theorem pickH_inBin (ct : String) (e : List ℚ) (N : Nat) (v : ℚ) (i : Nat)
    (h : pickH ct e N v = some i) : inBin ct e i v = true := by
  unfold pickH at h
  split at h
  · exact absurd h (by simp)
  · exact (find?_range_some _ N i h).2

theorem pickH_isSome (ct : String) (hct : ct = "forward" ∨ ct = "backward")
    (e : List ℚ) (N : Nat) (v : ℚ) :
    (pickH ct e N v).isSome = !outOfSpan ct e N v := by
  cases h : outOfSpan ct e N v with
  | true => simp [pickH, h]
  | false =>
    obtain ⟨i, hi, hb⟩ := exists_inBin ct hct e N v h
    have : ((List.range N).find? (fun i => inBin ct e i v)).isSome = true :=
      List.find?_isSome.mpr ⟨i, List.mem_range.mpr hi, hb⟩
    simpa [pickH, h] using this

theorem histc_sum_add_lost (ct : String) (hct : ct = "forward" ∨ ct = "backward")
    (e x : List ℚ) (N : Nat) :
    (histc ct e x N).1.sum + ((histc ct e x N).2 : ℚ) = (x.length : ℚ) := by
  rw [histc_eq ct hct]
  simp only
  rw [wfold_sum _ _ _ (fun v i h => by
        rw [List.length_replicate]; exact pickH_lt _ _ _ v i h),
    unit_weight_sum (fun v => (pickH ct e N v).isSome)]
  have hsum : (List.replicate N (0 : ℚ)).sum = 0 := by simp
  have hcount : x.countP (fun v => (pickH ct e N v).isSome)
      + x.countP (outOfSpan ct e N) = x.length := by
    have h := List.length_eq_countP_add_countP (outOfSpan ct e N) x
    have h2 : (fun v => (pickH ct e N v).isSome) = (fun v => !outOfSpan ct e N v) :=
      funext (pickH_isSome ct hct e N)
    rw [h2, h]
    have h3 : List.countP (fun v => !outOfSpan ct e N v) x
        = List.countP (fun a => decide ¬outOfSpan ct e N a = true) x := by
      congr 1; funext v; simp
    omega
  rw [hsum, zero_add, ← Nat.cast_add, hcount]
/-! ## Non-decreasing edges: the matching bin is unique -/

theorem mono_of_adjacent (f : Nat → ℚ) (N : Nat) (h : ∀ i, i < N → f i ≤ f (i + 1))
    (i j : Nat) (hij : i ≤ j) (hj : j ≤ N) : f i ≤ f j := by
  induction j with
  | zero =>
    have : i = 0 := Nat.le_zero.mp hij
    subst this; exact le_refl _
  | succ n ih =>
    rcases Nat.eq_or_lt_of_le hij with heq | hlt
    · subst heq; exact le_refl _
    · exact le_trans (ih (Nat.lt_succ_iff.mp hlt) (Nat.le_of_succ_le hj))
        (h n (Nat.lt_of_succ_le hj))

theorem inBin_unique (ct : String) (e : List ℚ) (N : Nat)
    (hmono : ∀ i, i < N → e.getD i 0 ≤ e.getD (i + 1) 0) (v : ℚ) (i k : Nat)
    (hi : i < N) (hk : k < N) (h1 : inBin ct e i v = true) (h2 : inBin ct e k v = true) :
    k = i := by
  have hm := mono_of_adjacent (fun i => e.getD i 0) N hmono
  unfold inBin at h1 h2
  by_contra hne
  rcases Nat.lt_or_gt_of_ne hne with hlt | hgt
  · have := hm (k + 1) i hlt (Nat.le_of_lt hi)
    split at h1
    · rw [if_pos (by assumption)] at h2
      rw [decide_eq_true_iff] at h1 h2
      exact absurd (lt_of_le_of_lt (le_trans h2.2 this) h1.1) (lt_irrefl _)
    · rw [if_neg (by assumption)] at h2
      rw [decide_eq_true_iff] at h1 h2
      exact absurd (lt_of_lt_of_le h2.2 (le_trans this h1.1)) (lt_irrefl _)
  · have := hm (i + 1) k hgt (Nat.le_of_lt hk)
    split at h1
    · rw [if_pos (by assumption)] at h2
      rw [decide_eq_true_iff] at h1 h2
      exact absurd (lt_of_le_of_lt (le_trans h1.2 this) h2.1) (lt_irrefl _)
    · rw [if_neg (by assumption)] at h2
      rw [decide_eq_true_iff] at h1 h2
      exact absurd (lt_of_lt_of_le h1.2 (le_trans this h2.1)) (lt_irrefl _)

theorem inBin_inside (ct : String) (e : List ℚ) (N : Nat)
    (hmono : ∀ i, i < N → e.getD i 0 ≤ e.getD (i + 1) 0) (v : ℚ) (i : Nat)
    (hi : i < N) (h1 : inBin ct e i v = true) : outOfSpan ct e N v = false := by
  have hm := mono_of_adjacent (fun i => e.getD i 0) N hmono
  have h0 := hm 0 i (Nat.zero_le i) (Nat.le_of_lt hi)
  have hN := hm (i + 1) N hi (le_refl N)
  unfold inBin at h1
  unfold outOfSpan
  split at h1
  · rw [if_pos (by assumption)]
    rw [decide_eq_true_iff] at h1
    rw [decide_eq_false_iff_not, not_or, not_le, not_lt]
    exact ⟨lt_of_le_of_lt h0 h1.1, le_trans h1.2 hN⟩
  · rw [if_neg (by assumption)]
    rw [decide_eq_true_iff] at h1
    rw [decide_eq_false_iff_not, not_or, not_le, not_lt]
    exact ⟨le_trans h0 h1.1, lt_of_lt_of_le h1.2 hN⟩

theorem pickH_eq_some_iff (ct : String) (e : List ℚ) (N : Nat)
    (hmono : ∀ i, i < N → e.getD i 0 ≤ e.getD (i + 1) 0) (v : ℚ) (i : Nat)
    (hi : i < N) : pickH ct e N v = some i ↔ inBin ct e i v = true := by
  constructor
  · exact pickH_inBin ct e N v i
  · intro h
    have hin := inBin_inside ct e N hmono v i hi h
    have hsome : ((List.range N).find? (fun i => inBin ct e i v)).isSome = true :=
      List.find?_isSome.mpr ⟨i, List.mem_range.mpr hi, h⟩
    obtain ⟨k, hk⟩ := Option.isSome_iff_exists.mp hsome
    have hk2 := find?_range_some _ N k hk
    have : k = i := inBin_unique ct e N hmono v i k hi hk2.1 h hk2.2
    subst this
    simp [pickH, hin, hk]

theorem histc_getD (ct : String) (hct : ct = "forward" ∨ ct = "backward")
    (e x : List ℚ) (N : Nat)
    (hmono : ∀ i, i < N → e.getD i 0 ≤ e.getD (i + 1) 0) (i : Nat) (hi : i < N) :
    (histc ct e x N).1.getD i 0 = (x.countP (inBin ct e i) : ℚ) := by
  rw [histc_eq ct hct]
  simp only
  rw [wfold_getD _ _ _ i (by rw [List.length_replicate]; exact hi),
    unit_weight_sum (fun v => pickH ct e N v == some i)]
  have h0 : (List.replicate N (0 : ℚ)).getD i 0 = 0 := by simp
  have hq : (fun v => pickH ct e N v == some i) = inBin ct e i := by
    funext v
    have := pickH_eq_some_iff ct e N hmono v i hi
    cases hb : inBin ct e i v with
    | true => simpa using this.mpr hb
    | false =>
      have hne : pickH ct e N v ≠ some i := fun h => by
        rw [this.mp h] at hb; exact absurd hb (by simp)
      simpa using hne
  rw [h0, zero_add, hq]

theorem histc_length (ct : String) (hct : ct = "forward" ∨ ct = "backward")
    (e x : List ℚ) (N : Nat) : (histc ct e x N).1.length = N := by
  rw [histc_eq ct hct]
  simp only
  rw [wfold_length, List.length_replicate]

/-! ## A single sample -/

theorem histc_single_of_inBin (ct : String) (hct : ct = "forward" ∨ ct = "backward")
    (e : List ℚ) (N : Nat)
    (hmono : ∀ i, i < N → e.getD i 0 ≤ e.getD (i + 1) 0) (v : ℚ) (i : Nat)
    (hi : i < N) (h : inBin ct e i v = true) :
    histc ct e [v] N = ((List.replicate N (0 : ℚ)).set i 1, 0) := by
  rw [histc_eq ct hct]
  have hp := (pickH_eq_some_iff ct e N hmono v i hi).mpr h
  have ho := inBin_inside ct e N hmono v i hi h
  have h0 : (List.replicate N (0 : ℚ)).getD i 0 = 0 := by simp
  simp only [List.map_cons, List.map_nil, List.foldl_cons, List.foldl_nil, wstep, hp,
    h0, zero_add, List.countP_cons_of_neg, ho, List.countP_nil, Bool.false_eq_true,
    not_false_eq_true]

/-! ## Samples outside the span -/

theorem wfold_filter (pick : ℚ → Option Nat) (q : ℚ → Bool)
    (hq : ∀ v, q v = false → pick v = none) (x : List ℚ) (c : List ℚ) :
    ((x.filter q).map (fun v => (v, (1 : ℚ)))).foldl (wstep pick) c
      = (x.map (fun v => (v, (1 : ℚ)))).foldl (wstep pick) c := by
  induction x generalizing c with
  | nil => rfl
  | cons v x ih =>
    cases h : q v with
    | true => simp only [List.filter_cons, h, if_true, List.map_cons, List.foldl_cons, ih]
    | false =>
      simp only [List.filter_cons, h, Bool.false_eq_true, if_false, List.map_cons,
        List.foldl_cons, ih]
      simp only [wstep, hq v h]

theorem histc_lost (ct : String) (hct : ct = "forward" ∨ ct = "backward")
    (e x : List ℚ) (N : Nat) : (histc ct e x N).2 = x.countP (outOfSpan ct e N) := by
  rw [histc_eq ct hct]

theorem histc_filter (ct : String) (hct : ct = "forward" ∨ ct = "backward")
    (e x : List ℚ) (N : Nat) :
    (histc ct e (x.filter (fun v => !outOfSpan ct e N v)) N).1 = (histc ct e x N).1 := by
  rw [histc_eq ct hct, histc_eq ct hct]
  simp only
  apply wfold_filter
  intro v hv
  have : outOfSpan ct e N v = true := by simpa using hv
  simp [pickH, this]

/-! ## The density overload of `meansc` -/

theorem getD_map_range {α : Type} (f : Nat → α) (N i : Nat) (hi : i < N) (d : α) :
    ((List.range N).map f).getD i d = f i := by
  simp [List.getD_eq_getElem?_getD, List.getElem?_range hi]

theorem foldl_add_range (f : Nat → ℚ) (N : Nat) :
    (List.range N).foldl (fun acc i => acc + f i) 0 = ∑ i ∈ Finset.range N, f i := by
  induction N with
  | zero => rfl
  | succ n ih =>
    rw [List.range_succ, List.foldl_append, ih, Finset.sum_range_succ]
    rfl

theorem sum_eq_sum_getD (l : List ℚ) :
    l.sum = ∑ i ∈ Finset.range l.length, l.getD i 0 := by
  induction l with
  | nil => rfl
  | cons a l ih =>
    rw [List.sum_cons, List.length_cons, Finset.sum_range_succ', ih]
    simp only [List.getD_cons_succ, List.getD_cons_zero]
    ring

/-- The normalisation constant that `meansc` accumulates. -/
theorem norm_const_eq (ct : String) (hct : ct = "forward" ∨ ct = "backward")
    (e x : List ℚ) (N : Nat) :
    (List.range N).foldl (fun acc i => acc + (histc ct e x N).1.getD i 0) (0 : ℚ)
      = (x.length : ℚ) - ((histc ct e x N).2 : ℚ) := by
  rw [foldl_add_range]
  have h := sum_eq_sum_getD (histc ct e x N).1
  rw [histc_length ct hct] at h
  rw [← h, ← histc_sum_add_lost ct hct e x N]
  ring

theorem meansc_eq_map (ct : String) (hct : ct = "forward" ∨ ct = "backward")
    (e x : List ℚ) (N : Nat)
    (hstrict : ∀ i, i < N → e.getD i 0 < e.getD (i + 1) 0)
    (hT : (x.length : ℚ) - ((histc ct e x N).2 : ℚ) ≠ 0) :
    meansc ct e x N = (List.range N).map (fun i =>
      some ((histc ct e x N).1.getD i 0
        / ((e.getD (i + 1) 0 - e.getD i 0)
            * ((x.length : ℚ) - ((histc ct e x N).2 : ℚ))))) := by
  unfold meansc
  simp only
  rw [norm_const_eq ct hct]
  apply List.map_congr_left
  intro i hi
  have hi : i < N := List.mem_range.mp hi
  have hw : e.getD (i + 1) 0 - e.getD i 0 ≠ 0 := ne_of_gt (sub_pos.mpr (hstrict i hi))
  rw [getD_map_range _ N i hi, diff, getD_map_range _ N i hi]
  simp only [fdiv, if_neg hw, Option.some_bind, if_neg hT, div_div]

theorem weighted_sum_one (n w : Nat → ℚ) (N : Nat) (T : ℚ)
    (hw : ∀ i, i < N → w i ≠ 0) (hT : T ≠ 0) (hsum : ∑ i ∈ Finset.range N, n i = T) :
    ∑ i ∈ Finset.range N, n i / (w i * T) * w i = 1 := by
  have h : ∀ i ∈ Finset.range N, n i / (w i * T) * w i = n i / T := by
    intro i hi
    have := hw i (Finset.mem_range.mp hi)
    field_simp
    ring
  rw [Finset.sum_congr rfl h, ← Finset.sum_div, hsum, div_self hT]

theorem meansc_normalised (ct : String) (hct : ct = "forward" ∨ ct = "backward")
    (e x : List ℚ) (N : Nat)
    (hstrict : ∀ i, i < N → e.getD i 0 < e.getD (i + 1) 0)
    (hT : (x.length : ℚ) - ((histc ct e x N).2 : ℚ) ≠ 0) :
    ∃ density : List ℚ, meansc ct e x N = density.map some ∧ density.length = N ∧
      ∑ i ∈ Finset.range N, density.getD i 0 * (e.getD (i + 1) 0 - e.getD i 0) = 1 := by
  refine ⟨(List.range N).map (fun i => (histc ct e x N).1.getD i 0
        / ((e.getD (i + 1) 0 - e.getD i 0)
            * ((x.length : ℚ) - ((histc ct e x N).2 : ℚ)))), ?_, ?_, ?_⟩
  · rw [meansc_eq_map ct hct e x N hstrict hT, List.map_map]
    rfl
  · simp
  · have hs : ∑ i ∈ Finset.range N, (histc ct e x N).1.getD i 0
        = (x.length : ℚ) - ((histc ct e x N).2 : ℚ) := by
      rw [← foldl_add_range, norm_const_eq ct hct]
    have := weighted_sum_one (fun i => (histc ct e x N).1.getD i 0)
      (fun i => e.getD (i + 1) 0 - e.getD i 0) N _
      (fun i hi => ne_of_gt (sub_pos.mpr (hstrict i hi))) hT hs
    rw [← this]
    apply Finset.sum_congr rfl
    intro i hi
    rw [getD_map_range _ N i (Finset.mem_range.mp hi)]

theorem forward_ne_backward : ¬ ("forward" = "backward") := by decide

/-! ## The loops of the (x, y) overload of `meansc` as tallies -/

theorem meansc_forward_pred (e : List ℚ) (N : Nat) (v : ℚ) :
    (fun i => decide (v ≥ e.getD N 0 ∨ (e.getD i 0 ≤ v ∧ e.getD (i + 1) 0 > v)))
      = (fun i => lostM "forward" e N v || inBin "forward" e i v) := by
  funext i
  simp [lostM, inBin]

theorem meansc_backward_pred (e : List ℚ) (N : Nat) (v : ℚ) :
    (fun i => decide (v ≤ e.getD 0 0 ∨ (e.getD i 0 < v ∧ e.getD (i + 1) 0 ≥ v)))
      = (fun i => lostM "backward" e N v || inBin "backward" e i v) := by
  funext i
  simp [lostM, inBin]

theorem meansc_forward_step_tables (e : List ℚ) (N : Nat) (st : MeanTables) (p : ℚ × ℚ) :
    (meansc_forward_step e N st p).counterY = wstep (pickM "forward" e N) st.counterY (p.1, 1)
    ∧ (meansc_forward_step e N st p).sum = wstep (pickM "forward" e N) st.sum p := by
  unfold meansc_forward_step pickM wstep
  rw [meansc_forward_pred]
  have hl : lostM "forward" e N p.1 = decide (p.1 ≥ e.getD N 0) := by simp [lostM]
  dsimp only
  generalize List.find? (fun i => lostM "forward" e N p.1 || inBin "forward" e i p.1)
      (List.range N) = r
  cases r with
  | none => exact ⟨rfl, rfl⟩
  | some i =>
    by_cases h : p.1 ≥ e.getD N 0
    · simp only [hl, decide_eq_true_eq, h, if_true]
      exact ⟨trivial, trivial⟩
    · simp only [hl, decide_eq_true_eq, h, if_false, incr]
      exact ⟨trivial, trivial⟩

theorem meansc_backward_step_tables (e : List ℚ) (N : Nat) (st : MeanTables) (p : ℚ × ℚ) :
    (meansc_backward_step e N st p).counterY
        = wstep (pickM "backward" e N) st.counterY (p.1, 1)
    ∧ (meansc_backward_step e N st p).sum = wstep (pickM "backward" e N) st.sum p := by
  unfold meansc_backward_step pickM wstep
  rw [meansc_backward_pred e N]
  have hl : lostM "backward" e N p.1 = decide (p.1 ≤ e.getD 0 0) := by simp [lostM]
  dsimp only
  generalize List.find? (fun i => lostM "backward" e N p.1 || inBin "backward" e i p.1)
      (List.range N) = r
  cases r with
  | none => exact ⟨rfl, rfl⟩
  | some i =>
    by_cases h : p.1 ≤ e.getD 0 0
    · simp only [hl, decide_eq_true_eq, h, if_true]
      exact ⟨trivial, trivial⟩
    · simp only [hl, decide_eq_true_eq, h, if_false, incr]
      exact ⟨trivial, trivial⟩

theorem fold_tables_eq (f : MeanTables → ℚ × ℚ → MeanTables) (pick : ℚ → Option Nat)
    (hf : ∀ st p, (f st p).counterY = wstep pick st.counterY (p.1, 1)
      ∧ (f st p).sum = wstep pick st.sum p)
    (l : List (ℚ × ℚ)) (st : MeanTables) :
    (l.foldl f st).counterY
        = ((l.map Prod.fst).map (fun v => (v, (1 : ℚ)))).foldl (wstep pick) st.counterY
    ∧ (l.foldl f st).sum = l.foldl (wstep pick) st.sum := by
  induction l generalizing st with
  | nil => exact ⟨rfl, rfl⟩
  | cons p l ih =>
    simp only [List.foldl_cons, List.map_cons]
    rw [(ih (f st p)).1, (ih (f st p)).2, (hf st p).1, (hf st p).2]
    exact ⟨rfl, rfl⟩

theorem meansc_counting_eq (ct : String) (hct : ct = "forward" ∨ ct = "backward")
    (e x y : List ℚ) (N : Nat) :
    (meansc_counting ct e x y N).counterY
        = (((x.zip y).map Prod.fst).map (fun v => (v, (1 : ℚ)))).foldl
            (wstep (pickM ct e N)) (List.replicate N 0)
    ∧ (meansc_counting ct e x y N).sum
        = (x.zip y).foldl (wstep (pickM ct e N)) (List.replicate N 0) := by
  rcases hct with rfl | rfl
  · have := fold_tables_eq _ _ (meansc_forward_step_tables e N) (x.zip y)
      { counterY := List.replicate N 0, sum := List.replicate N 0, lost := 0 }
    simpa [meansc_counting, forward_ne_backward] using this
  · have := fold_tables_eq _ _ (meansc_backward_step_tables e N) (x.zip y)
      { counterY := List.replicate N 0, sum := List.replicate N 0, lost := 0 }
    simpa [meansc_counting] using this

theorem pickM_spec (ct : String) (e : List ℚ) (N : Nat) (v : ℚ) (i : Nat)
    (h : pickM ct e N v = some i) :
    i < N ∧ lostM ct e N v = false ∧ inBin ct e i v = true := by
  unfold pickM at h
  cases hf : List.find? (fun i => lostM ct e N v || inBin ct e i v) (List.range N) with
  | none => rw [hf] at h; exact absurd h (by simp)
  | some k =>
    rw [hf] at h
    have hk := find?_range_some _ N k hf
    cases hl : lostM ct e N v with
    | true => rw [hl] at h; exact absurd h (by simp)
    | false =>
      rw [hl] at h
      have hki : k = i := by simpa using h
      subst hki
      refine ⟨hk.1, rfl, ?_⟩
      simpa [hl] using hk.2

theorem lostM_of_inside (ct : String) (e : List ℚ) (N : Nat) (v : ℚ)
    (h : outOfSpan ct e N v = false) : lostM ct e N v = false := by
  unfold outOfSpan at h
  unfold lostM
  split at h
  · rw [if_pos (by assumption)]
    rw [decide_eq_false_iff_not, not_or] at h
    exact decide_eq_false h.1
  · rw [if_neg (by assumption)]
    rw [decide_eq_false_iff_not, not_or] at h
    exact decide_eq_false h.2

theorem pickM_eq_some_iff (ct : String) (e : List ℚ) (N : Nat)
    (hmono : ∀ i, i < N → e.getD i 0 ≤ e.getD (i + 1) 0) (v : ℚ) (i : Nat)
    (hi : i < N) : pickM ct e N v = some i ↔ inBin ct e i v = true := by
  constructor
  · exact fun h => (pickM_spec ct e N v i h).2.2
  · intro h
    have hl := lostM_of_inside ct e N v (inBin_inside ct e N hmono v i hi h)
    have hsome : ((List.range N).find?
        (fun i => lostM ct e N v || inBin ct e i v)).isSome = true :=
      List.find?_isSome.mpr ⟨i, List.mem_range.mpr hi, by simp [h]⟩
    obtain ⟨k, hk⟩ := Option.isSome_iff_exists.mp hsome
    have hk2 := find?_range_some _ N k hk
    have hkb : inBin ct e k v = true := by simpa [hl] using hk2.2
    have : k = i := inBin_unique ct e N hmono v i k hi hk2.1 h hkb
    subst this
    unfold pickM
    rw [hk]
    simp only [hl, Bool.false_eq_true, if_false]

theorem pickM_eq_pickH (ct : String) (e : List ℚ) (N : Nat)
    (hmono : ∀ i, i < N → e.getD i 0 ≤ e.getD (i + 1) 0) :
    pickM ct e N = pickH ct e N := by
  funext v
  apply Option.ext
  intro i
  constructor
  · intro h
    have hi := (pickM_spec ct e N v i h).1
    exact (pickH_eq_some_iff ct e N hmono v i hi).mpr
      ((pickM_eq_some_iff ct e N hmono v i hi).mp h)
  · intro h
    have hi := pickH_lt ct e N v i h
    exact (pickM_eq_some_iff ct e N hmono v i hi).mpr
      ((pickH_eq_some_iff ct e N hmono v i hi).mp h)

theorem meansc_xy_getD (ct : String) (e x y : List ℚ) (N i : Nat) (hi : i < N) :
    (meansc_xy ct e x y N).1.getD i none
      = if (meansc_counting ct e x y N).counterY.getD i 0 ≠ 0
        then fdiv ((meansc_counting ct e x y N).sum.getD i 0)
          ((meansc_counting ct e x y N).counterY.getD i 0)
        else some 0 := by
  unfold meansc_xy
  simp only
  rw [getD_map_range _ N i hi]

theorem counterY_getD (ct : String) (hct : ct = "forward" ∨ ct = "backward")
    (e x y : List ℚ) (N i : Nat) (hi : i < N) :
    (meansc_counting ct e x y N).counterY.getD i 0
      = ((((x.zip y).map Prod.fst).countP (fun v => pickM ct e N v == some i) : Nat) : ℚ) := by
  rw [(meansc_counting_eq ct hct e x y N).1,
    wfold_getD _ _ _ i (by rw [List.length_replicate]; exact hi),
    unit_weight_sum (fun v => pickM ct e N v == some i)]
  simp

theorem counterY_eq_zero (ct : String) (hct : ct = "forward" ∨ ct = "backward")
    (e x y : List ℚ) (N i : Nat) (hi : i < N)
    (hempty : ∀ v, v ∈ x → inBin ct e i v = false) :
    (meansc_counting ct e x y N).counterY.getD i 0 = 0 := by
  rw [counterY_getD ct hct e x y N i hi, Nat.cast_eq_zero, List.countP_eq_zero]
  intro v hv
  obtain ⟨p, hp, hpv⟩ := List.mem_map.mp hv
  have hx : v ∈ x := by
    rw [← hpv]
    exact (List.of_mem_zip (show (p.1, p.2) ∈ x.zip y from hp)).1
  intro hpick
  have hpick : pickM ct e N v = some i := by simpa using hpick
  have := (pickM_spec ct e N v i hpick).2.2
  rw [hempty v hx] at this
  exact absurd this (by simp)

theorem meansc_tables_getD (ct : String) (hct : ct = "forward" ∨ ct = "backward")
    (e x y : List ℚ) (N : Nat)
    (hmono : ∀ i, i < N → e.getD i 0 ≤ e.getD (i + 1) 0)
    (hxy : x.length = y.length) (i : Nat) (hi : i < N) :
    (meansc_counting ct e x y N).counterY.getD i 0 = (x.countP (inBin ct e i) : ℚ)
    ∧ (meansc_counting ct e x y N).sum.getD i 0
        = (((x.zip y).filter (fun p => inBin ct e i p.1)).map Prod.snd).sum := by
  have hq : (fun v => pickM ct e N v == some i) = inBin ct e i := by
    funext v
    have := pickM_eq_some_iff ct e N hmono v i hi
    cases hb : inBin ct e i v with
    | true => simpa using this.mpr hb
    | false =>
      have hne : pickM ct e N v ≠ some i := fun h => by
        rw [this.mp h] at hb; exact absurd hb (by simp)
      simpa using hne
  constructor
  · rw [counterY_getD ct hct e x y N i hi, hq, List.map_fst_zip _ _ (le_of_eq hxy)]
  · rw [(meansc_counting_eq ct hct e x y N).2,
      wfold_getD _ _ _ i (by rw [List.length_replicate]; exact hi)]
    have hq2 : (fun p : ℚ × ℚ => pickM ct e N p.1 == some i)
        = (fun p => inBin ct e i p.1) := by
      funext p; exact congrFun hq p.1
    rw [hq2]
    simp

theorem counterY_eq_histc (ct : String) (hct : ct = "forward" ∨ ct = "backward")
    (e x y : List ℚ) (N : Nat)
    (hmono : ∀ i, i < N → e.getD i 0 ≤ e.getD (i + 1) 0)
    (hxy : x.length = y.length) :
    (meansc_counting ct e x y N).counterY = (histc ct e x N).1 := by
  rw [(meansc_counting_eq ct hct e x y N).1, histc_eq ct hct,
    List.map_fst_zip _ _ (le_of_eq hxy), pickM_eq_pickH ct e N hmono]

/-! ## The edges of `linspace` -/

theorem linspace_getD (start end_ : ℚ) (n : Nat) (hn : 1 ≤ n) (i : Nat) (hi : i ≤ n) :
    (linspace start end_ n).getD i none
      = some (start + (i : ℚ) * ((end_ - start) / (n : ℚ))) := by
  have hn0 : (n : ℚ) ≠ 0 := Nat.cast_ne_zero.mpr (Nat.pos_iff_ne_zero.mp hn)
  unfold linspace
  simp only
  rw [getD_map_range _ (n + 1) i (Nat.lt_succ_of_le hi), fdiv, if_neg hn0, Option.map_some']

theorem linspace_step (start end_ : ℚ) (n : Nat) (i : Nat) :
    (start + ((i + 1 : Nat) : ℚ) * ((end_ - start) / (n : ℚ)))
      - (start + (i : ℚ) * ((end_ - start) / (n : ℚ))) = (end_ - start) / (n : ℚ) := by
  push_cast
  ring

/-! ## `histc`: samples off the edges, zero-width bins, unknown count type -/

theorem find?_congr_mem {α : Type} (p q : α → Bool) (l : List α)
    (h : ∀ a, a ∈ l → p a = q a) : l.find? p = l.find? q := by
  induction l with
  | nil => rfl
  | cons a l ih =>
    have ha : p a = q a := h a (List.mem_cons_self a l)
    have ih2 := ih (fun b hb => h b (List.mem_cons_of_mem a hb))
    simp only [List.find?_cons, ha, ih2]

theorem outOfSpan_off_edges (e : List ℚ) (N : Nat) (v : ℚ)
    (hv : ∀ i, i ≤ N → v ≠ e.getD i 0) :
    outOfSpan "forward" e N v = outOfSpan "backward" e N v := by
  have h0 := hv 0 (Nat.zero_le N)
  have hN := hv N (le_refl N)
  rw [outOfSpan_forward, outOfSpan_backward]
  apply decide_eq_decide.mpr
  constructor
  · rintro (h | h)
    · exact Or.inr (lt_of_le_of_ne h (Ne.symm hN))
    · exact Or.inl (le_of_lt h)
  · rintro (h | h)
    · exact Or.inr (lt_of_le_of_ne h h0)
    · exact Or.inl (le_of_lt h)

theorem inBin_off_edges (e : List ℚ) (N : Nat) (v : ℚ)
    (hv : ∀ i, i ≤ N → v ≠ e.getD i 0) (i : Nat) (hi : i < N) :
    inBin "forward" e i v = inBin "backward" e i v := by
  have h0 := hv i (Nat.le_of_lt hi)
  have h1 := hv (i + 1) hi
  rw [inBin_forward, inBin_backward]
  apply decide_eq_decide.mpr
  constructor
  · rintro ⟨ha, hb⟩
    exact ⟨lt_of_le_of_ne ha (Ne.symm h0), le_of_lt hb⟩
  · rintro ⟨ha, hb⟩
    exact ⟨le_of_lt ha, lt_of_le_of_ne hb h1⟩

theorem pickH_off_edges (e : List ℚ) (N : Nat) (v : ℚ)
    (hv : ∀ i, i ≤ N → v ≠ e.getD i 0) :
    pickH "forward" e N v = pickH "backward" e N v := by
  unfold pickH
  rw [outOfSpan_off_edges e N v hv,
    find?_congr_mem (fun i => inBin "forward" e i v) (fun i => inBin "backward" e i v)
      (List.range N) (fun i hi => inBin_off_edges e N v hv i (List.mem_range.mp hi))]

theorem histc_off_edges (e x : List ℚ) (N : Nat)
    (hoff : ∀ v, v ∈ x → ∀ i, i ≤ N → v ≠ e.getD i 0) :
    histc "forward" e x N = histc "backward" e x N := by
  rw [histc_eq "forward" (Or.inl rfl), histc_eq "backward" (Or.inr rfl)]
  congr 1
  · apply List.foldl_ext
    intro c p hp
    obtain ⟨v, hv, hpv⟩ := List.mem_map.mp hp
    subst hpv
    simp only [wstep, pickH_off_edges e N v (hoff v hv)]
  · apply List.countP_congr
    intro v hv
    rw [outOfSpan_off_edges e N v (hoff v hv)]

theorem inBin_zero_width (ct : String) (e : List ℚ) (i : Nat) (v : ℚ)
    (hw : e.getD i 0 = e.getD (i + 1) 0) : inBin ct e i v = false := by
  unfold inBin
  rw [← hw]
  split
  · exact decide_eq_false (fun h => absurd (lt_of_lt_of_le h.1 h.2) (lt_irrefl _))
  · exact decide_eq_false (fun h => absurd (lt_of_le_of_lt h.1 h.2) (lt_irrefl _))

theorem histc_getD_pick (ct : String) (hct : ct = "forward" ∨ ct = "backward")
    (e x : List ℚ) (N i : Nat) (hi : i < N) :
    (histc ct e x N).1.getD i 0
      = ((x.countP (fun v => pickH ct e N v == some i) : Nat) : ℚ) := by
  rw [histc_eq ct hct]
  simp only
  rw [wfold_getD _ _ _ i (by rw [List.length_replicate]; exact hi),
    unit_weight_sum (fun v => pickH ct e N v == some i)]
  simp

theorem histc_zero_width (ct : String) (hct : ct = "forward" ∨ ct = "backward")
    (e x : List ℚ) (N i : Nat) (hi : i < N)
    (hw : e.getD i 0 = e.getD (i + 1) 0) :
    (histc ct e x N).1.getD i 0 = 0 := by
  rw [histc_getD_pick ct hct e x N i hi, Nat.cast_eq_zero, List.countP_eq_zero]
  intro v _ hpick
  have hpick : pickH ct e N v = some i := by simpa using hpick
  have := pickH_inBin ct e N v i hpick
  rw [inBin_zero_width ct e i v hw] at this
  exact absurd this (by simp)

theorem histc_other (ct : String) (hf : ct ≠ "forward") (hb : ct ≠ "backward")
    (e x : List ℚ) (N : Nat) : histc ct e x N = (List.replicate N 0, 0) := by
  unfold histc
  simp only [if_neg hb, if_neg hf]

/-! ## The recurrence of `logspace` -/

theorem getD_set_of_lt {α : Type} (c : List α) (k i : Nat) (a d : α) (hi : i < c.length) :
    (c.set k a).getD i d = if k = i then a else c.getD i d := by
  simp only [List.getD_eq_getElem?_getD, List.getElem?_set]
  split_ifs with h1 h2
  · rfl
  · omega
  · rfl

/-- The body of the `i` loop of `logspace`. -/
theorem logspace_fold {K : Type} [Field K] [DecidableEq K] (g : Nat → K)
    (hg0 : ∀ i, g i ≠ 0) (hrec : ∀ i, g (i + 2) = g (i + 1) * g (i + 1) / g i)
    (n : Nat) (L0 : List (Option K)) (hlen : L0.length = n + 1)
    (h0 : L0.getD 0 none = some (g 0)) (h1 : L0.getD 1 none = some (g 1))
    (m : Nat) (hm : m + 1 ≤ n) :
    ((List.range' 2 m).foldl
        (fun values i => values.set i
          ((values.getD (i - 1) none).bind (fun a =>
            (values.getD (i - 2) none).bind (fun b => fdiv (a * a) b))))
        L0).length = n + 1
    ∧ ∀ j, j ≤ m + 1 →
      ((List.range' 2 m).foldl
        (fun values i => values.set i
          ((values.getD (i - 1) none).bind (fun a =>
            (values.getD (i - 2) none).bind (fun b => fdiv (a * a) b))))
        L0).getD j none = some (g j) := by
  induction m with
  | zero =>
    refine ⟨hlen, ?_⟩
    intro j hj
    rcases Nat.le_one_iff_eq_zero_or_eq_one.mp hj with rfl | rfl
    · exact h0
    · exact h1
  | succ m ih =>
    obtain ⟨ihlen, ihget⟩ := ih (Nat.le_of_succ_le hm)
    rw [List.range'_concat, List.foldl_append]
    simp only [List.foldl_cons, List.foldl_nil, Nat.one_mul]
    refine ⟨by rw [List.length_set, ihlen], ?_⟩
    intro j hj
    have hjlen : j < ((List.range' 2 m).foldl
        (fun values i => values.set i
          ((values.getD (i - 1) none).bind (fun a =>
            (values.getD (i - 2) none).bind (fun b => fdiv (a * a) b))))
        L0).length := by rw [ihlen]; omega
    rw [getD_set_of_lt _ _ _ _ _ hjlen]
    by_cases hjm : 2 + m = j
    · rw [if_pos hjm]
      have e1 : 2 + m - 1 = m + 1 := by omega
      have e2 : 2 + m - 2 = m := by omega
      rw [e1, e2, ihget (m + 1) (le_refl _), ihget m (Nat.le_succ m)]
      simp only [Option.some_bind, fdiv, if_neg (hg0 m)]
      rw [← hjm, Nat.add_comm 2 m, hrec m]
    · rw [if_neg hjm]
      exact ihget j (by omega)

/-! ## `logspace` over the real numbers -/

theorem root_identity (start end_ : ℝ) (n : Nat) (hs : 0 < start) (he : 0 < end_)
    (hn : 1 ≤ n) :
    (start ^ ((n : ℝ) - 1) * end_) ^ ((1 : ℝ) / (n : ℝ))
      = start * (end_ / start) ^ ((1 : ℝ) / (n : ℝ)) := by
  have hn0 : (n : ℝ) ≠ 0 := Nat.cast_ne_zero.mpr (Nat.pos_iff_ne_zero.mp hn)
  have hexp : ((n : ℝ) - 1) * ((1 : ℝ) / (n : ℝ)) = 1 - (1 : ℝ) / (n : ℝ) := by
    field_simp
  rw [Real.mul_rpow (le_of_lt (Real.rpow_pos_of_pos hs _)) (le_of_lt he),
    ← Real.rpow_mul (le_of_lt hs), hexp, Real.rpow_sub hs, Real.rpow_one,
    Real.div_rpow (le_of_lt he) (le_of_lt hs)]
  have hpos : 0 < start ^ ((1 : ℝ) / (n : ℝ)) := Real.rpow_pos_of_pos hs _
  field_simp

theorem ratio_pow (start end_ : ℝ) (n : Nat) (hs : 0 < start) (he : 0 < end_)
    (hn : 1 ≤ n) :
    ((end_ / start) ^ ((1 : ℝ) / (n : ℝ))) ^ n = end_ / start := by
  rw [one_div]
  exact Real.rpow_inv_natCast_pow (le_of_lt (div_pos he hs)) (Nat.pos_iff_ne_zero.mp hn)

theorem logspace_first_two (pow : ℝ → ℝ → Option ℝ)
    (hpow : ∀ x y, 0 < x → pow x y = some (x ^ y))
    (start end_ : ℝ) (n : Nat) (hs : 0 < start) (he : 0 < end_) (hn : 1 ≤ n) :
    (((List.replicate (n + 1) (none : Option ℝ)).set 0 (some start)).set 1
        ((fdiv (1 : ℝ) (n : ℝ)).bind (fun r => (pow start ((n : ℝ) - 1)).bind
          (fun p => pow (p * end_) r)))).length = n + 1
    ∧ (((List.replicate (n + 1) (none : Option ℝ)).set 0 (some start)).set 1
        ((fdiv (1 : ℝ) (n : ℝ)).bind (fun r => (pow start ((n : ℝ) - 1)).bind
          (fun p => pow (p * end_) r)))).getD 0 none = some start
    ∧ (((List.replicate (n + 1) (none : Option ℝ)).set 0 (some start)).set 1
        ((fdiv (1 : ℝ) (n : ℝ)).bind (fun r => (pow start ((n : ℝ) - 1)).bind
          (fun p => pow (p * end_) r)))).getD 1 none
        = some ((start ^ ((n : ℝ) - 1) * end_) ^ ((1 : ℝ) / (n : ℝ))) := by
  have hn0 : (n : ℝ) ≠ 0 := Nat.cast_ne_zero.mpr (Nat.pos_iff_ne_zero.mp hn)
  have hp : 0 < start ^ ((n : ℝ) - 1) * end_ := mul_pos (Real.rpow_pos_of_pos hs _) he
  have hv : (fdiv (1 : ℝ) (n : ℝ)).bind (fun r => (pow start ((n : ℝ) - 1)).bind
      (fun p => pow (p * end_) r))
      = some ((start ^ ((n : ℝ) - 1) * end_) ^ ((1 : ℝ) / (n : ℝ))) := by
    rw [fdiv, if_neg hn0, Option.some_bind, hpow start _ hs, Option.some_bind,
      hpow _ _ hp]
  rw [hv]
  refine ⟨by simp, ?_, ?_⟩
  · rw [getD_set_of_lt _ _ _ _ _ (by simp), if_neg (by decide),
      getD_set_of_lt _ _ _ _ _ (by simp), if_pos rfl]
  · rw [getD_set_of_lt _ _ _ _ _ (by simp; omega), if_pos rfl]

theorem logspace_getD_real (pow : ℝ → ℝ → Option ℝ)
    (hpow : ∀ x y, 0 < x → pow x y = some (x ^ y))
    (start end_ : ℝ) (n : Nat) (hs : 0 < start) (he : 0 < end_) (hn : 1 ≤ n)
    (i : Nat) (hi : i ≤ n) :
    (logspace pow start end_ n).getD i none
      = some (start * ((end_ / start) ^ ((1 : ℝ) / (n : ℝ))) ^ i) := by
  have hr : 0 < (end_ / start) ^ ((1 : ℝ) / (n : ℝ)) :=
    Real.rpow_pos_of_pos (div_pos he hs) _
  obtain ⟨hlen, h0, h1⟩ := logspace_first_two pow hpow start end_ n hs he hn
  rw [root_identity start end_ n hs he hn] at h1
  have hfold := logspace_fold
    (fun j => start * ((end_ / start) ^ ((1 : ℝ) / (n : ℝ))) ^ j)
    (fun j => ne_of_gt (mul_pos hs (pow_pos hr j)))
    (fun j => by
      have h1 : start ≠ 0 := ne_of_gt hs
      have h2 : ((end_ / start) ^ ((1 : ℝ) / (n : ℝ))) ^ j ≠ 0 := ne_of_gt (pow_pos hr j)
      field_simp
      ring)
    n _ hlen (by rw [h0]; simp) (by rw [h1]; simp) (n - 1) (by omega)
  unfold logspace
  exact hfold.2 i (by omega)

theorem logspace_length_real (pow : ℝ → ℝ → Option ℝ)
    (hpow : ∀ x y, 0 < x → pow x y = some (x ^ y))
    (start end_ : ℝ) (n : Nat) (hs : 0 < start) (he : 0 < end_) (hn : 1 ≤ n) :
    (logspace pow start end_ n).length = n + 1 := by
  have hr : 0 < (end_ / start) ^ ((1 : ℝ) / (n : ℝ)) :=
    Real.rpow_pos_of_pos (div_pos he hs) _
  obtain ⟨hlen, h0, h1⟩ := logspace_first_two pow hpow start end_ n hs he hn
  rw [root_identity start end_ n hs he hn] at h1
  have hfold := logspace_fold
    (fun j => start * ((end_ / start) ^ ((1 : ℝ) / (n : ℝ))) ^ j)
    (fun j => ne_of_gt (mul_pos hs (pow_pos hr j)))
    (fun j => by
      have h1 : start ≠ 0 := ne_of_gt hs
      have h2 : ((end_ / start) ^ ((1 : ℝ) / (n : ℝ))) ^ j ≠ 0 := ne_of_gt (pow_pos hr j)
      field_simp
      ring)
    n _ hlen (by rw [h0]; simp) (by rw [h1]; simp) (n - 1) (by omega)
  unfold logspace
  exact hfold.1

/-! ## `logspace` and `spacing` on arbitrary input -/

theorem logspace_fold_keeps {K : Type} [Field K] [DecidableEq K] (L0 : List (Option K))
    (m : Nat) :
    ((List.range' 2 m).foldl
        (fun values i => values.set i
          ((values.getD (i - 1) none).bind (fun a =>
            (values.getD (i - 2) none).bind (fun b => fdiv (a * a) b))))
        L0).length = L0.length
    ∧ ((List.range' 2 m).foldl
        (fun values i => values.set i
          ((values.getD (i - 1) none).bind (fun a =>
            (values.getD (i - 2) none).bind (fun b => fdiv (a * a) b))))
        L0).getD 0 none = L0.getD 0 none := by
  induction m with
  | zero => exact ⟨rfl, rfl⟩
  | succ m ih =>
    rw [List.range'_concat, List.foldl_append]
    simp only [List.foldl_cons, List.foldl_nil, Nat.one_mul]
    refine ⟨by rw [List.length_set, ih.1], ?_⟩
    by_cases hlen : 0 < L0.length
    · rw [getD_set_of_lt _ _ _ _ _ (by rw [ih.1]; exact hlen), if_neg (by omega), ih.2]
    · have hnil : L0 = [] := List.length_eq_zero.mp (by omega)
      subst hnil
      have hl := ih.1
      rw [List.length_nil, List.length_eq_zero] at hl
      rw [hl]
      rfl

theorem logspace_length {K : Type} [Field K] [DecidableEq K] (pow : K → K → Option K)
    (start end_ : K) (n : Nat) : (logspace pow start end_ n).length = n + 1 := by
  unfold logspace
  simp only
  rw [(logspace_fold_keeps _ _).1]
  simp

theorem logspace_getD_zero {K : Type} [Field K] [DecidableEq K] (pow : K → K → Option K)
    (start end_ : K) (n : Nat) : (logspace pow start end_ n).getD 0 none = some start := by
  unfold logspace
  simp only
  rw [(logspace_fold_keeps _ _).2, getD_set_of_lt _ _ _ _ _ (by simp), if_neg (by decide),
    getD_set_of_lt _ _ _ _ _ (by simp), if_pos rfl]

theorem log_ne_lin : ¬ ("log" = "lin" ∨ "log" = "linear") := by decide

theorem logarithmic_ne_lin : ¬ ("logarithmic" = "lin" ∨ "logarithmic" = "linear") := by
  decide

theorem spacing_log (pow : ℚ → ℚ → Option ℚ) (start end_ : ℚ) (n : Nat) :
    spacing pow "log" start end_ n
        = (logspace pow start end_ n,
            if start ≤ 0 then some Diagnostic.nonPositiveStart else none)
    ∧ spacing pow "logarithmic" start end_ n
        = (logspace pow start end_ n,
            if start ≤ 0 then some Diagnostic.nonPositiveStart else none) := by
  constructor
  · unfold spacing
    simp only [if_neg log_ne_lin, true_or, if_true]
  · unfold spacing
    simp only [if_neg logarithmic_ne_lin, or_true, if_true]

/-! ## Claims on `histc` -/

/-- C1. Under "forward" and under "backward", for every number of bins, every edge
sequence of that many bins plus one (monotone or not) and every sample series, the
bin counts of `histc` add up, together with the lost count, to the number of samples. -/
theorem histc_counts_add_lost (count_type : String)
    (hct : count_type = "forward" ∨ count_type = "backward")
    (bin_edges x : List ℚ) (number_of_bins : Nat)
    (_hlen : bin_edges.length = number_of_bins + 1) :
    (histc count_type bin_edges x number_of_bins).1.sum
        + ((histc count_type bin_edges x number_of_bins).2 : ℚ)
      = (x.length : ℚ) :=
  histc_sum_add_lost count_type hct bin_edges x number_of_bins

/-- Witness of `histc_counts_add_lost`: edges 0,1,2,3 under "forward" with one sample
in each bin, one below the span and one on the last edge. -/
theorem histc_counts_add_lost_witness :
    (histc "forward" [0, 1, 2, 3] [0, 3, -1, 5/2, 3/2] 3).1.sum
        + ((histc "forward" [0, 1, 2, 3] [0, 3, -1, 5/2, 3/2] 3).2 : ℚ)
      = (([0, 3, -1, 5/2, 3/2] : List ℚ).length : ℚ) :=
  histc_counts_add_lost "forward" (Or.inl rfl) [0, 1, 2, 3] [0, 3, -1, 5/2, 3/2] 3 rfl

/-- C2. For non-decreasing edges the count that `histc` returns for a bin is the number
of samples inside that bin's interval: closed on the left and open on the right under
"forward", open on the left and closed on the right under "backward". -/
theorem histc_count_eq_reference (bin_edges x : List ℚ) (number_of_bins : Nat)
    (_hlen : bin_edges.length = number_of_bins + 1)
    (hmono : ∀ i, i < number_of_bins → bin_edges.getD i 0 ≤ bin_edges.getD (i + 1) 0)
    (i : Nat) (hi : i < number_of_bins) :
    (histc "forward" bin_edges x number_of_bins).1.getD i 0
        = (x.countP (fun v =>
            decide (bin_edges.getD i 0 ≤ v ∧ v < bin_edges.getD (i + 1) 0)) : ℚ)
    ∧ (histc "backward" bin_edges x number_of_bins).1.getD i 0
        = (x.countP (fun v =>
            decide (bin_edges.getD i 0 < v ∧ v ≤ bin_edges.getD (i + 1) 0)) : ℚ) := by
  constructor
  · have h := histc_getD "forward" (Or.inl rfl) bin_edges x number_of_bins hmono i hi
    have hf : inBin "forward" bin_edges i = fun v =>
        decide (bin_edges.getD i 0 ≤ v ∧ v < bin_edges.getD (i + 1) 0) := by
      funext v; simp [inBin]
    rw [hf] at h; exact h
  · have h := histc_getD "backward" (Or.inr rfl) bin_edges x number_of_bins hmono i hi
    have hf : inBin "backward" bin_edges i = fun v =>
        decide (bin_edges.getD i 0 < v ∧ v ≤ bin_edges.getD (i + 1) 0) := by
      funext v; simp [inBin]
    rw [hf] at h; exact h

/-- Witness of `histc_count_eq_reference`: edges 0,1,1,3 (a repeated edge) and bin 2. -/
theorem histc_count_eq_reference_witness :
    (histc "forward" [0, 1, 1, 3] [1, 2, 3, 0] 3).1.getD 2 0
        = (([1, 2, 3, 0] : List ℚ).countP (fun v =>
            decide (([0, 1, 1, 3] : List ℚ).getD 2 0 ≤ v
              ∧ v < ([0, 1, 1, 3] : List ℚ).getD (2 + 1) 0)) : ℚ)
    ∧ (histc "backward" [0, 1, 1, 3] [1, 2, 3, 0] 3).1.getD 2 0
        = (([1, 2, 3, 0] : List ℚ).countP (fun v =>
            decide (([0, 1, 1, 3] : List ℚ).getD 2 0 < v
              ∧ v ≤ ([0, 1, 1, 3] : List ℚ).getD (2 + 1) 0)) : ℚ) :=
  histc_count_eq_reference [0, 1, 1, 3] [1, 2, 3, 0] 3 rfl
    (by
      intro i hi
      interval_cases i <;> norm_num)
    2 (by decide)

/-- C3. For strictly increasing edges and an interior index `k`, the single sample
`edge[k]` is counted by `histc` once, in bin `k` under "forward" and in bin `k-1`
under "backward"; every other count is zero and nothing is lost. -/
theorem histc_sample_on_interior_edge (bin_edges : List ℚ) (number_of_bins : Nat)
    (_hlen : bin_edges.length = number_of_bins + 1)
    (hstrict : ∀ i, i < number_of_bins → bin_edges.getD i 0 < bin_edges.getD (i + 1) 0)
    (k : Nat) (hk0 : 0 < k) (hkN : k < number_of_bins) :
    histc "forward" bin_edges [bin_edges.getD k 0] number_of_bins
        = ((List.replicate number_of_bins (0 : ℚ)).set k 1, 0)
    ∧ histc "backward" bin_edges [bin_edges.getD k 0] number_of_bins
        = ((List.replicate number_of_bins (0 : ℚ)).set (k - 1) 1, 0) := by
  have hmono : ∀ i, i < number_of_bins → bin_edges.getD i 0 ≤ bin_edges.getD (i + 1) 0 :=
    fun i hi => le_of_lt (hstrict i hi)
  constructor
  · apply histc_single_of_inBin "forward" (Or.inl rfl) bin_edges number_of_bins hmono _ k hkN
    rw [inBin_forward]
    exact decide_eq_true ⟨le_refl _, hstrict k hkN⟩
  · have hk1 : k - 1 < number_of_bins := by omega
    apply histc_single_of_inBin "backward" (Or.inr rfl) bin_edges number_of_bins hmono _
      (k - 1) hk1
    rw [inBin_backward]
    have h := hstrict (k - 1) hk1
    have hk : k - 1 + 1 = k := by omega
    rw [hk] at h ⊢
    exact decide_eq_true ⟨h, le_refl _⟩

/-- Witness of `histc_sample_on_interior_edge`: with edges 0,1,2,3 the sample 1 gives
the counts 0,1,0 under "forward" and 1,0,0 under "backward". -/
theorem histc_sample_on_interior_edge_witness :
    histc "forward" [0, 1, 2, 3] [1] 3 = ([0, 1, 0], 0)
    ∧ histc "backward" [0, 1, 2, 3] [1] 3 = ([1, 0, 0], 0) :=
  histc_sample_on_interior_edge [0, 1, 2, 3] 3 rfl
    (by
      intro i hi
      interval_cases i <;> norm_num)
    1 (by decide) (by decide)

/-- C4. The lost count of `histc` is the number of samples outside the edge span
(below `edge[0]` or at or above `edge[N]` under "forward"; at or below `edge[0]` or
above `edge[N]` under "backward"), and these samples reach no bin: the counts are those
of the series from which they have been removed. -/
theorem histc_lost_eq_reference (bin_edges x : List ℚ) (number_of_bins : Nat)
    (_hlen : bin_edges.length = number_of_bins + 1) :
    ((histc "forward" bin_edges x number_of_bins).2
        = x.countP (fun v =>
            decide (v < bin_edges.getD 0 0 ∨ v ≥ bin_edges.getD number_of_bins 0))
      ∧ (histc "forward" bin_edges
            (x.filter (fun v =>
              !decide (v < bin_edges.getD 0 0 ∨ v ≥ bin_edges.getD number_of_bins 0)))
            number_of_bins).1
          = (histc "forward" bin_edges x number_of_bins).1)
    ∧ ((histc "backward" bin_edges x number_of_bins).2
        = x.countP (fun v =>
            decide (v ≤ bin_edges.getD 0 0 ∨ v > bin_edges.getD number_of_bins 0))
      ∧ (histc "backward" bin_edges
            (x.filter (fun v =>
              !decide (v ≤ bin_edges.getD 0 0 ∨ v > bin_edges.getD number_of_bins 0)))
            number_of_bins).1
          = (histc "backward" bin_edges x number_of_bins).1) := by
  have hf : outOfSpan "forward" bin_edges number_of_bins = fun v =>
      decide (v < bin_edges.getD 0 0 ∨ v ≥ bin_edges.getD number_of_bins 0) := by
    funext v; simp [outOfSpan]
  have hb : outOfSpan "backward" bin_edges number_of_bins = fun v =>
      decide (v ≤ bin_edges.getD 0 0 ∨ v > bin_edges.getD number_of_bins 0) := by
    funext v; simp [outOfSpan]
  refine ⟨⟨?_, ?_⟩, ⟨?_, ?_⟩⟩
  · rw [← hf]; exact histc_lost "forward" (Or.inl rfl) bin_edges x number_of_bins
  · have h := histc_filter "forward" (Or.inl rfl) bin_edges x number_of_bins
    rw [hf] at h; exact h
  · rw [← hb]; exact histc_lost "backward" (Or.inr rfl) bin_edges x number_of_bins
  · have h := histc_filter "backward" (Or.inr rfl) bin_edges x number_of_bins
    rw [hb] at h; exact h

/-- Witness of `histc_lost_eq_reference`: edges 0,1,2 with samples on both end edges
and on either side of the span. -/
theorem histc_lost_eq_reference_witness :
    ((histc "forward" [0, 1, 2] [0, 2, -1, 3, 1/2] 2).2
        = ([0, 2, -1, 3, 1/2] : List ℚ).countP (fun v =>
            decide (v < ([0, 1, 2] : List ℚ).getD 0 0 ∨ v ≥ ([0, 1, 2] : List ℚ).getD 2 0))
      ∧ (histc "forward" [0, 1, 2]
            (([0, 2, -1, 3, 1/2] : List ℚ).filter (fun v =>
              !decide (v < ([0, 1, 2] : List ℚ).getD 0 0
                ∨ v ≥ ([0, 1, 2] : List ℚ).getD 2 0)))
            2).1
          = (histc "forward" [0, 1, 2] [0, 2, -1, 3, 1/2] 2).1)
    ∧ ((histc "backward" [0, 1, 2] [0, 2, -1, 3, 1/2] 2).2
        = ([0, 2, -1, 3, 1/2] : List ℚ).countP (fun v =>
            decide (v ≤ ([0, 1, 2] : List ℚ).getD 0 0 ∨ v > ([0, 1, 2] : List ℚ).getD 2 0))
      ∧ (histc "backward" [0, 1, 2]
            (([0, 2, -1, 3, 1/2] : List ℚ).filter (fun v =>
              !decide (v ≤ ([0, 1, 2] : List ℚ).getD 0 0
                ∨ v > ([0, 1, 2] : List ℚ).getD 2 0)))
            2).1
          = (histc "backward" [0, 1, 2] [0, 2, -1, 3, 1/2] 2).1) :=
  histc_lost_eq_reference [0, 1, 2] [0, 2, -1, 3, 1/2] 2 rfl

/-! ## Claims on the density overload of `meansc` -/

/-- C5. For strictly increasing edges with at least one bin, either policy, and a
non-empty sample series none of whose samples is lost, every density returned by the
density overload of `meansc` is a finite number and the densities weighted by the bin
widths add up to one. -/
theorem meansc_density_sums_to_one (count_type : String)
    (hct : count_type = "forward" ∨ count_type = "backward")
    (bin_edges x : List ℚ) (number_of_bins : Nat)
    (_hlen : bin_edges.length = number_of_bins + 1) (_hN : 1 ≤ number_of_bins)
    (hstrict : ∀ i, i < number_of_bins → bin_edges.getD i 0 < bin_edges.getD (i + 1) 0)
    (hlost : (histc count_type bin_edges x number_of_bins).2 = 0)
    (hx : 0 < x.length) :
    ∃ density : List ℚ,
      meansc count_type bin_edges x number_of_bins = density.map some
      ∧ density.length = number_of_bins
      ∧ ∑ i ∈ Finset.range number_of_bins,
          density.getD i 0 * (bin_edges.getD (i + 1) 0 - bin_edges.getD i 0) = 1 := by
  apply meansc_normalised count_type hct bin_edges x number_of_bins hstrict
  rw [hlost, Nat.cast_zero, sub_zero]
  exact Nat.cast_ne_zero.mpr (Nat.pos_iff_ne_zero.mp hx)

/-- Witness of `meansc_density_sums_to_one`: edges 0,1,2 and samples 1/2, 1/2, 3/2,
whose density is 2/3, 1/3. -/
theorem meansc_density_sums_to_one_witness :
    meansc "forward" [0, 1, 2] [1/2, 1/2, 3/2] 2 = [some (2/3), some (1/3)]
    ∧ ∃ density : List ℚ,
      meansc "forward" [0, 1, 2] [1/2, 1/2, 3/2] 2 = density.map some
      ∧ density.length = 2
      ∧ ∑ i ∈ Finset.range 2,
          density.getD i 0
            * (([0, 1, 2] : List ℚ).getD (i + 1) 0 - ([0, 1, 2] : List ℚ).getD i 0) = 1 :=
  ⟨by norm_num [meansc, diff, fdiv, histc, histc_forward_step, incr, List.range_succ,
      forward_ne_backward],
    meansc_density_sums_to_one "forward" (Or.inl rfl) [0, 1, 2] [1/2, 1/2, 3/2] 2 rfl
      (by decide)
      (by
        intro i hi
        interval_cases i <;> norm_num)
      (by norm_num [histc, histc_forward_step, incr, List.range_succ, forward_ne_backward])
      (by decide)⟩

/-- C6. For strictly increasing edges, either policy, and a sample series of which at
least one sample is not lost, the density that the density overload of `meansc` returns
for bin `i` is `count[i] / ((edge[i+1] - edge[i]) * (number of samples - lost))` with the
counts and the lost count of `histc`; the densities weighted by the bin widths therefore
add up to one, whether or not samples are lost. -/
theorem meansc_density_formula (count_type : String)
    (hct : count_type = "forward" ∨ count_type = "backward")
    (bin_edges x : List ℚ) (number_of_bins : Nat)
    (_hlen : bin_edges.length = number_of_bins + 1)
    (hstrict : ∀ i, i < number_of_bins → bin_edges.getD i 0 < bin_edges.getD (i + 1) 0)
    (hin : (histc count_type bin_edges x number_of_bins).2 < x.length) :
    (∀ i, i < number_of_bins →
      (meansc count_type bin_edges x number_of_bins).getD i none
        = some ((histc count_type bin_edges x number_of_bins).1.getD i 0
            / ((bin_edges.getD (i + 1) 0 - bin_edges.getD i 0)
                * ((x.length : ℚ)
                    - ((histc count_type bin_edges x number_of_bins).2 : ℚ)))))
    ∧ ∃ density : List ℚ,
      meansc count_type bin_edges x number_of_bins = density.map some
      ∧ density.length = number_of_bins
      ∧ ∑ i ∈ Finset.range number_of_bins,
          density.getD i 0 * (bin_edges.getD (i + 1) 0 - bin_edges.getD i 0) = 1 := by
  have hT : (x.length : ℚ) - ((histc count_type bin_edges x number_of_bins).2 : ℚ) ≠ 0 := by
    have : ((histc count_type bin_edges x number_of_bins).2 : ℚ) < (x.length : ℚ) :=
      Nat.cast_lt.mpr hin
    exact ne_of_gt (sub_pos.mpr this)
  refine ⟨?_, meansc_normalised count_type hct bin_edges x number_of_bins hstrict hT⟩
  intro i hi
  rw [meansc_eq_map count_type hct bin_edges x number_of_bins hstrict hT,
    getD_map_range _ number_of_bins i hi]

/-- Witness of `meansc_density_formula`: edges 0,1,3 under "backward" with two of the
five samples lost. -/
theorem meansc_density_formula_witness :
    (∀ i, i < 2 →
      (meansc "backward" [0, 1, 3] [1/2, 1, 2, 0, 7] 2).getD i none
        = some ((histc "backward" [0, 1, 3] [1/2, 1, 2, 0, 7] 2).1.getD i 0
            / ((([0, 1, 3] : List ℚ).getD (i + 1) 0 - ([0, 1, 3] : List ℚ).getD i 0)
                * ((([1/2, 1, 2, 0, 7] : List ℚ).length : ℚ)
                    - ((histc "backward" [0, 1, 3] [1/2, 1, 2, 0, 7] 2).2 : ℚ)))))
    ∧ ∃ density : List ℚ,
      meansc "backward" [0, 1, 3] [1/2, 1, 2, 0, 7] 2 = density.map some
      ∧ density.length = 2
      ∧ ∑ i ∈ Finset.range 2,
          density.getD i 0
            * (([0, 1, 3] : List ℚ).getD (i + 1) 0 - ([0, 1, 3] : List ℚ).getD i 0) = 1 :=
  meansc_density_formula "backward" (Or.inr rfl) [0, 1, 3] [1/2, 1, 2, 0, 7] 2 rfl
    (by
      intro i hi
      interval_cases i <;> norm_num)
    (by norm_num [histc, histc_backward_step, incr, List.range_succ])

/-! ## Claims on the (x, y) overload of `meansc` -/

/-- C7. For non-decreasing edges, either policy, and samples `x` with companions `y` of
the same length, the (x, y) overload of `meansc` returns for a bin with at least one
matching sample the sum of the companions of the samples inside the bin's interval
divided by the number of those samples, and its table of per-bin sample counters is the
count table of `histc` on the same edges and samples. -/
theorem meansc_xy_mean_eq_reference (count_type : String)
    (hct : count_type = "forward" ∨ count_type = "backward")
    (bin_edges x y : List ℚ) (number_of_bins : Nat)
    (_hlen : bin_edges.length = number_of_bins + 1)
    (hmono : ∀ i, i < number_of_bins → bin_edges.getD i 0 ≤ bin_edges.getD (i + 1) 0)
    (hxy : x.length = y.length)
    (i : Nat) (hi : i < number_of_bins)
    (hne : 0 < x.countP (inBin count_type bin_edges i)) :
    (meansc_xy count_type bin_edges x y number_of_bins).1.getD i none
        = some ((((x.zip y).filter (fun p => inBin count_type bin_edges i p.1)).map
              Prod.snd).sum
            / (x.countP (inBin count_type bin_edges i) : ℚ))
    ∧ (meansc_counting count_type bin_edges x y number_of_bins).counterY
        = (histc count_type bin_edges x number_of_bins).1 := by
  have ht := meansc_tables_getD count_type hct bin_edges x y number_of_bins hmono hxy i hi
  have hc : ((x.countP (inBin count_type bin_edges i) : Nat) : ℚ) ≠ 0 :=
    Nat.cast_ne_zero.mpr (Nat.pos_iff_ne_zero.mp hne)
  refine ⟨?_, counterY_eq_histc count_type hct bin_edges x y number_of_bins hmono hxy⟩
  rw [meansc_xy_getD count_type bin_edges x y number_of_bins i hi, ht.1, ht.2,
    if_pos hc, fdiv, if_neg hc]

/-- Witness of `meansc_xy_mean_eq_reference`: edges 0,1,2 under "forward", bin 0 holding
two of the four samples. -/
theorem meansc_xy_mean_eq_reference_witness :
    (meansc_xy "forward" [0, 1, 2] [0, 1, 0, 5] [4, 7, 6, 9] 2).1.getD 0 none
        = some ((((([0, 1, 0, 5] : List ℚ).zip [4, 7, 6, 9]).filter
              (fun p => inBin "forward" [0, 1, 2] 0 p.1)).map Prod.snd).sum
            / (([0, 1, 0, 5] : List ℚ).countP (inBin "forward" [0, 1, 2] 0) : ℚ))
    ∧ (meansc_counting "forward" [0, 1, 2] [0, 1, 0, 5] [4, 7, 6, 9] 2).counterY
        = (histc "forward" [0, 1, 2] [0, 1, 0, 5] 2).1 :=
  meansc_xy_mean_eq_reference "forward" (Or.inl rfl) [0, 1, 2] [0, 1, 0, 5] [4, 7, 6, 9] 2
    rfl
    (by
      intro i hi
      interval_cases i <;> norm_num)
    rfl 0 (by decide) (by decide)

/-- C8. The lost counter of the (x, y) overload of `meansc` is not the lost count of
`histc`: under "backward" with edges 0,1 the sample 2 lies above the last edge, `histc`
reports it lost, the (x, y) overload puts it in no bin and leaves its lost counter at 0;
under "forward" the same happens to the sample -1 below the first edge. -/
theorem meansc_xy_lost_differs_from_histc :
    ((meansc_xy "backward" [0, 1] [2] [5] 1).2 = 0
      ∧ (meansc_counting "backward" [0, 1] [2] [5] 1).counterY = [0]
      ∧ (histc "backward" [0, 1] [2] 1).2 = 1)
    ∧ ((meansc_xy "forward" [0, 1] [-1] [5] 1).2 = 0
      ∧ (meansc_counting "forward" [0, 1] [-1] [5] 1).counterY = [0]
      ∧ (histc "forward" [0, 1] [-1] 1).2 = 1) := by
  refine ⟨⟨?_, ?_, ?_⟩, ⟨?_, ?_, ?_⟩⟩
  · norm_num [meansc_xy, meansc_counting, meansc_backward_step, List.range_succ]
  · norm_num [meansc_counting, meansc_backward_step, List.range_succ]
  · norm_num [histc, histc_backward_step, List.range_succ]
  · norm_num [meansc_xy, meansc_counting, meansc_forward_step, List.range_succ,
      forward_ne_backward]
  · norm_num [meansc_counting, meansc_forward_step, List.range_succ, forward_ne_backward]
  · norm_num [histc, histc_forward_step, List.range_succ, forward_ne_backward]

/-- C9. For every edge sequence, either policy and every sample and companion series,
each mean returned by the (x, y) overload of `meansc` is a finite number (no division by
a zero counter takes place), and the mean of a bin is exactly 0 when its counter is 0,
in particular when no sample lies inside the bin's interval. -/
theorem meansc_xy_empty_bin_zero (count_type : String)
    (hct : count_type = "forward" ∨ count_type = "backward")
    (bin_edges x y : List ℚ) (number_of_bins : Nat)
    (_hlen : bin_edges.length = number_of_bins + 1)
    (i : Nat) (hi : i < number_of_bins) :
    (meansc_xy count_type bin_edges x y number_of_bins).1.getD i none ≠ none
    ∧ ((meansc_counting count_type bin_edges x y number_of_bins).counterY.getD i 0 = 0 →
        (meansc_xy count_type bin_edges x y number_of_bins).1.getD i none = some 0)
    ∧ ((∀ v, v ∈ x → inBin count_type bin_edges i v = false) →
        (meansc_xy count_type bin_edges x y number_of_bins).1.getD i none = some 0) := by
  have hg := meansc_xy_getD count_type bin_edges x y number_of_bins i hi
  have hzero : (meansc_counting count_type bin_edges x y number_of_bins).counterY.getD i 0 = 0 →
      (meansc_xy count_type bin_edges x y number_of_bins).1.getD i none = some 0 := by
    intro h0
    rw [hg, if_neg (not_not.mpr h0)]
  refine ⟨?_, hzero, fun hempty => hzero
    (counterY_eq_zero count_type hct bin_edges x y number_of_bins i hi hempty)⟩
  rw [hg]
  by_cases h0 : (meansc_counting count_type bin_edges x y number_of_bins).counterY.getD i 0 = 0
  · rw [if_neg (not_not.mpr h0)]
    exact Option.some_ne_none _
  · rw [if_pos h0, fdiv, if_neg h0]
    exact Option.some_ne_none _

/-- Witness of `meansc_xy_empty_bin_zero`: the empty series, edges 0,1,2, bin 1. -/
theorem meansc_xy_empty_bin_zero_witness :
    (meansc_xy "backward" [0, 1, 2] [] [] 2).1.getD 1 none ≠ none
    ∧ ((meansc_counting "backward" [0, 1, 2] [] [] 2).counterY.getD 1 0 = 0 →
        (meansc_xy "backward" [0, 1, 2] [] [] 2).1.getD 1 none = some 0)
    ∧ ((∀ v, v ∈ ([] : List ℚ) → inBin "backward" [0, 1, 2] 1 v = false) →
        (meansc_xy "backward" [0, 1, 2] [] [] 2).1.getD 1 none = some 0) :=
  meansc_xy_empty_bin_zero "backward" (Or.inr rfl) [0, 1, 2] [] [] 2 rfl 1 (by decide)

/-! ## Claims on `linspace` -/

/-- C10. For at least one bin, `linspace` returns one edge more than there are bins,
every edge is the finite number `start + i*(end-start)/n`, the first edge is `start`
and the last edge is `end`. -/
theorem linspace_edges (start end_ : ℚ) (number_of_bins : Nat)
    (hn : 1 ≤ number_of_bins) :
    (linspace start end_ number_of_bins).length = number_of_bins + 1
    ∧ (∀ i, i ≤ number_of_bins →
        (linspace start end_ number_of_bins).getD i none
          = some (start + (i : ℚ) * (end_ - start) / (number_of_bins : ℚ)))
    ∧ (linspace start end_ number_of_bins).getD 0 none = some start
    ∧ (linspace start end_ number_of_bins).getD number_of_bins none = some end_ := by
  have hn0 : (number_of_bins : ℚ) ≠ 0 :=
    Nat.cast_ne_zero.mpr (Nat.pos_iff_ne_zero.mp hn)
  have hget : ∀ i, i ≤ number_of_bins →
      (linspace start end_ number_of_bins).getD i none
        = some (start + (i : ℚ) * (end_ - start) / (number_of_bins : ℚ)) := by
    intro i hi
    unfold linspace
    simp only
    rw [getD_map_range _ (number_of_bins + 1) i (Nat.lt_succ_of_le hi), fdiv, if_neg hn0,
      Option.map_some', mul_div_assoc]
  refine ⟨by simp [linspace], hget, ?_, ?_⟩
  · rw [hget 0 (Nat.zero_le _)]
    simp
  · rw [hget number_of_bins (le_refl _)]
    congr 1
    field_simp

/-- Witness of `linspace_edges`: four bins over the range from 0 to 1. -/
theorem linspace_edges_witness :
    (linspace 0 1 4).length = 4 + 1
    ∧ (∀ i, i ≤ 4 →
        (linspace 0 1 4).getD i none = some ((0 : ℚ) + (i : ℚ) * (1 - 0) / ((4 : Nat) : ℚ)))
    ∧ (linspace 0 1 4).getD 0 none = some 0
    ∧ (linspace 0 1 4).getD 4 none = some 1 :=
  linspace_edges 0 1 4 (by decide)

/-- C11, the claim as stated fails: `linspace 1 0 1` is the sequence 1, 0, whose first
edge is above its second, so a range with `end < start` gives a decreasing sequence. -/
theorem linspace_decreasing_example :
    linspace 1 0 1 = [some 1, some 0]
    ∧ ¬ (∀ i, i < 1 → ∃ a b, (linspace 1 0 1).getD i none = some a
          ∧ (linspace 1 0 1).getD (i + 1) none = some b ∧ a ≤ b) := by
  have h : linspace 1 0 1 = [some 1, some 0] := by
    norm_num [linspace, fdiv, List.range_succ]
  refine ⟨h, ?_⟩
  intro hall
  obtain ⟨a, b, ha, hb, hab⟩ := hall 0 (by decide)
  rw [h] at ha hb
  have ha1 : a = 1 := by simpa using ha.symm
  have hb0 : b = 0 := by simpa using hb.symm
  rw [ha1, hb0] at hab
  exact absurd hab (by norm_num)

/-- C11, amended. For at least one bin and `start ≤ end`, the edges returned by `linspace`
are finite and non-decreasing, and they are strictly increasing when `start < end`. -/
theorem linspace_monotone (start end_ : ℚ) (number_of_bins : Nat)
    (hn : 1 ≤ number_of_bins) (hle : start ≤ end_) :
    (∀ i, i < number_of_bins → ∃ a b,
        (linspace start end_ number_of_bins).getD i none = some a
        ∧ (linspace start end_ number_of_bins).getD (i + 1) none = some b ∧ a ≤ b)
    ∧ (start < end_ → ∀ i, i < number_of_bins → ∃ a b,
        (linspace start end_ number_of_bins).getD i none = some a
        ∧ (linspace start end_ number_of_bins).getD (i + 1) none = some b ∧ a < b) := by
  have hnpos : (0 : ℚ) < (number_of_bins : ℚ) := Nat.cast_pos.mpr hn
  constructor
  · intro i hi
    refine ⟨_, _, linspace_getD start end_ number_of_bins hn i (Nat.le_of_lt hi),
      linspace_getD start end_ number_of_bins hn (i + 1) hi, ?_⟩
    have hstep := linspace_step start end_ number_of_bins i
    have hnn : 0 ≤ (end_ - start) / (number_of_bins : ℚ) :=
      div_nonneg (sub_nonneg.mpr hle) (le_of_lt hnpos)
    linarith
  · intro hlt i hi
    refine ⟨_, _, linspace_getD start end_ number_of_bins hn i (Nat.le_of_lt hi),
      linspace_getD start end_ number_of_bins hn (i + 1) hi, ?_⟩
    have hstep := linspace_step start end_ number_of_bins i
    have hpos : 0 < (end_ - start) / (number_of_bins : ℚ) :=
      div_pos (sub_pos.mpr hlt) hnpos
    linarith

/-- Witness of `linspace_monotone`: four bins over the range from 0 to 1. -/
theorem linspace_monotone_witness :
    (∀ i, i < 4 → ∃ a b,
        (linspace 0 1 4).getD i none = some a
        ∧ (linspace 0 1 4).getD (i + 1) none = some b ∧ a ≤ b)
    ∧ ((0 : ℚ) < 1 → ∀ i, i < 4 → ∃ a b,
        (linspace 0 1 4).getD i none = some a
        ∧ (linspace 0 1 4).getD (i + 1) none = some b ∧ a < b) :=
  linspace_monotone 0 1 4 (by decide) (by norm_num)

/-! ## Claims on `giveBinCenters` -/

/-- C14. For every edge sequence of one more entry than there are bins, `giveBinCenters`
returns one center per bin, the center of bin `i` being `(edge[i] + edge[i+1]) / 2`, and
the overload called with the bin type "lin" returns the same sequence. -/
theorem giveBinCenters_midpoints (sqrt : ℚ → Option ℚ) (bin_edges : List ℚ)
    (number_of_bins : Nat) (_hlen : bin_edges.length = number_of_bins + 1) :
    (giveBinCenters bin_edges number_of_bins).length = number_of_bins
    ∧ (∀ i, i < number_of_bins →
        (giveBinCenters bin_edges number_of_bins).getD i 0
          = (bin_edges.getD i 0 + bin_edges.getD (i + 1) 0) / 2)
    ∧ giveBinCenters_type sqrt "lin" bin_edges number_of_bins
        = (giveBinCenters bin_edges number_of_bins).map some := by
  refine ⟨by simp [giveBinCenters], ?_, by simp [giveBinCenters_type]⟩
  intro i hi
  unfold giveBinCenters
  rw [getD_map_range _ number_of_bins i hi]

/-- Witness of `giveBinCenters_midpoints`: the edges 0,2,4 have the centers 1,3. -/
theorem giveBinCenters_midpoints_witness :
    giveBinCenters [0, 2, 4] 2 = [1, 3]
    ∧ ((giveBinCenters [0, 2, 4] 2).length = 2
      ∧ (∀ i, i < 2 →
          (giveBinCenters [0, 2, 4] 2).getD i 0
            = (([0, 2, 4] : List ℚ).getD i 0 + ([0, 2, 4] : List ℚ).getD (i + 1) 0) / 2)
      ∧ giveBinCenters_type (fun _ => none) "lin" [0, 2, 4] 2
          = (giveBinCenters [0, 2, 4] 2).map some) :=
  ⟨by norm_num [giveBinCenters, List.range_succ],
    giveBinCenters_midpoints (fun _ => none) [0, 2, 4] 2 rfl⟩

/-! ## Further claims on `histc` -/

/-- C17. When no sample equals any of the edges `edge[0..N]`, `histc` returns the same
bin counts and the same lost count under "forward" and under "backward". -/
theorem histc_policies_agree_off_edges (bin_edges x : List ℚ) (number_of_bins : Nat)
    (_hlen : bin_edges.length = number_of_bins + 1)
    (hoff : ∀ v, v ∈ x → ∀ i, i ≤ number_of_bins → v ≠ bin_edges.getD i 0) :
    histc "forward" bin_edges x number_of_bins
      = histc "backward" bin_edges x number_of_bins :=
  histc_off_edges bin_edges x number_of_bins hoff

/-- Witness of `histc_policies_agree_off_edges`: edges 0,2,4 and the samples 1, 3, 5
and -1, none of which is an edge. -/
theorem histc_policies_agree_off_edges_witness :
    histc "forward" [0, 2, 4] [1, 3, 5, -1] 2 = histc "backward" [0, 2, 4] [1, 3, 5, -1] 2 :=
  histc_policies_agree_off_edges [0, 2, 4] [1, 3, 5, -1] 2 rfl
    (by
      intro v hv i hi
      simp only [List.mem_cons, List.mem_singleton, List.not_mem_nil, or_false] at hv
      interval_cases i <;> rcases hv with rfl | rfl | rfl | rfl <;> norm_num)

/-- C18. For every edge sequence, either policy and every sample series, a bin of zero
width (`edge[i] = edge[i+1]`) gets the count 0 from `histc`; the density overload of
`meansc` then divides this 0 by the width 0, and its entry for the bin is not a finite
number. -/
theorem histc_zero_width_bin_empty (count_type : String)
    (hct : count_type = "forward" ∨ count_type = "backward")
    (bin_edges x : List ℚ) (number_of_bins : Nat)
    (_hlen : bin_edges.length = number_of_bins + 1)
    (i : Nat) (hi : i < number_of_bins)
    (hw : bin_edges.getD i 0 = bin_edges.getD (i + 1) 0) :
    (histc count_type bin_edges x number_of_bins).1.getD i 0 = 0
    ∧ (diff bin_edges number_of_bins).getD i 0 = 0
    ∧ (meansc count_type bin_edges x number_of_bins).getD i none = none := by
  have hc := histc_zero_width count_type hct bin_edges x number_of_bins i hi hw
  have hd : (diff bin_edges number_of_bins).getD i 0 = 0 := by
    unfold diff
    rw [getD_map_range _ number_of_bins i hi, hw, sub_self]
  refine ⟨hc, hd, ?_⟩
  unfold meansc
  simp only
  rw [getD_map_range _ number_of_bins i hi, getD_map_range _ number_of_bins i hi, hc, hd]
  simp [fdiv]

/-- Witness of `histc_zero_width_bin_empty`: edges 0,1,1,2, whose bin 1 has no width,
with samples on and next to the repeated edge. -/
theorem histc_zero_width_bin_empty_witness :
    (histc "forward" [0, 1, 1, 2] [1, 1, 0, 3] 3).1.getD 1 0 = 0
    ∧ (diff [0, 1, 1, 2] 3).getD 1 0 = 0
    ∧ (meansc "forward" [0, 1, 1, 2] [1, 1, 0, 3] 3).getD 1 none = none :=
  histc_zero_width_bin_empty "forward" (Or.inl rfl) [0, 1, 1, 2] [1, 1, 0, 3] 3 rfl
    1 (by decide) (by norm_num)

/-- C19. For a count type that is neither "forward" nor "backward", `histc` returns a
count of 0 for each of the bins and the lost count 0, whatever the edges and samples; for
a non-empty sample series the counts and the lost count then do not add up to the number
of samples. -/
theorem histc_unknown_count_type (count_type : String)
    (hf : count_type ≠ "forward") (hb : count_type ≠ "backward")
    (bin_edges x : List ℚ) (number_of_bins : Nat)
    (_hlen : bin_edges.length = number_of_bins + 1) :
    histc count_type bin_edges x number_of_bins
        = (List.replicate number_of_bins (0 : ℚ), 0)
    ∧ (x ≠ [] →
        (histc count_type bin_edges x number_of_bins).1.sum
            + ((histc count_type bin_edges x number_of_bins).2 : ℚ)
          ≠ (x.length : ℚ)) := by
  have h := histc_other count_type hf hb bin_edges x number_of_bins
  refine ⟨h, ?_⟩
  intro hx
  rw [h]
  have hlen : (x.length : ℚ) ≠ 0 :=
    Nat.cast_ne_zero.mpr (fun h0 => hx (List.length_eq_zero.mp h0))
  simpa using hlen.symm

/-- Witness of `histc_unknown_count_type`: the count type "fwd". -/
theorem histc_unknown_count_type_witness :
    histc "fwd" [0, 1, 2] [1/2, 3/2] 2 = (List.replicate 2 (0 : ℚ), 0)
    ∧ (([1/2, 3/2] : List ℚ) ≠ [] →
        (histc "fwd" [0, 1, 2] [1/2, 3/2] 2).1.sum
            + ((histc "fwd" [0, 1, 2] [1/2, 3/2] 2).2 : ℚ)
          ≠ ((([1/2, 3/2] : List ℚ)).length : ℚ)) :=
  histc_unknown_count_type "fwd" (by decide) (by decide) [0, 1, 2] [1/2, 3/2] 2 rfl

/-! ## Claims on `logspace` and `spacing` -/

/-- C12. Over the real numbers, with a power function that is exact on positive bases,
and for `start > 0`, `end > 0` and at least one bin, the edges returned by `logspace`
are geometrically spaced with the single ratio `r = (end/start)^(1/n)`:
`edge[i] = start * r^i` for `i ≤ n`, and `edge[i+1] = r * edge[i]` for `i < n`. -/
theorem logspace_geometric (pow : ℝ → ℝ → Option ℝ)
    (hpow : ∀ x y, 0 < x → pow x y = some (x ^ y))
    (start end_ : ℝ) (number_of_bins : Nat)
    (hs : 0 < start) (he : 0 < end_) (hn : 1 ≤ number_of_bins) :
    (∀ i, i ≤ number_of_bins →
      (logspace pow start end_ number_of_bins).getD i none
        = some (start * ((end_ / start) ^ ((1 : ℝ) / (number_of_bins : ℝ))) ^ i))
    ∧ (∀ i, i < number_of_bins → ∃ a b,
        (logspace pow start end_ number_of_bins).getD i none = some a
        ∧ (logspace pow start end_ number_of_bins).getD (i + 1) none = some b
        ∧ b = (end_ / start) ^ ((1 : ℝ) / (number_of_bins : ℝ)) * a) := by
  have hget := logspace_getD_real pow hpow start end_ number_of_bins hs he hn
  refine ⟨hget, ?_⟩
  intro i hi
  refine ⟨_, _, hget i (Nat.le_of_lt hi), hget (i + 1) hi, ?_⟩
  rw [pow_succ]
  ring

/-- Witness of `logspace_geometric`: three bins from 1 to 8. -/
theorem logspace_geometric_witness :
    (∀ i, i ≤ 3 →
      (logspace (fun x y => some (x ^ y)) (1 : ℝ) 8 3).getD i none
        = some ((1 : ℝ) * (((8 : ℝ) / 1) ^ ((1 : ℝ) / ((3 : Nat) : ℝ))) ^ i))
    ∧ (∀ i, i < 3 → ∃ a b,
        (logspace (fun x y => some (x ^ y)) (1 : ℝ) 8 3).getD i none = some a
        ∧ (logspace (fun x y => some (x ^ y)) (1 : ℝ) 8 3).getD (i + 1) none = some b
        ∧ b = ((8 : ℝ) / 1) ^ ((1 : ℝ) / ((3 : Nat) : ℝ)) * a) :=
  logspace_geometric (fun x y => some (x ^ y)) (fun _ _ _ => rfl) 1 8 3
    (by norm_num) (by norm_num) (by decide)

/-- C16. Over the real numbers, with a power function that is exact on positive bases,
and for `start > 0`, `end > 0` and at least one bin, the last edge returned by
`logspace` is `end`; for one bin the result is the pair `start`, `end`. -/
theorem logspace_last_edge (pow : ℝ → ℝ → Option ℝ)
    (hpow : ∀ x y, 0 < x → pow x y = some (x ^ y))
    (start end_ : ℝ) (number_of_bins : Nat)
    (hs : 0 < start) (he : 0 < end_) (hn : 1 ≤ number_of_bins) :
    (logspace pow start end_ number_of_bins).getD number_of_bins none = some end_
    ∧ logspace pow start end_ 1 = [some start, some end_] := by
  have hlast : ∀ n, 1 ≤ n → (logspace pow start end_ n).getD n none = some end_ := by
    intro n hn1
    rw [logspace_getD_real pow hpow start end_ n hs he hn1 n (le_refl n),
      ratio_pow start end_ n hs he hn1]
    congr 1
    field_simp
  refine ⟨hlast number_of_bins hn, ?_⟩
  have h0 := logspace_getD_zero pow start end_ 1
  have h1 := hlast 1 (le_refl 1)
  have hl := logspace_length pow start end_ 1
  match hL : logspace pow start end_ 1, hl with
  | [a, b], _ =>
    rw [hL] at h0 h1
    simp only [List.getD_cons_zero, List.getD_cons_succ] at h0 h1
    rw [h0, h1]

/-- Witness of `logspace_last_edge`: three bins from 1 to 8. -/
theorem logspace_last_edge_witness :
    (logspace (fun x y => some (x ^ y)) (1 : ℝ) 8 3).getD 3 none = some 8
    ∧ logspace (fun x y => some (x ^ y)) (1 : ℝ) 8 1 = [some 1, some 8] :=
  logspace_last_edge (fun x y => some (x ^ y)) (fun _ _ _ => rfl) 1 8 3
    (by norm_num) (by norm_num) (by decide)

/-- C15, the claim as stated fails: called with the bin type "log", the start edge 0,
the end edge 8 and one bin, `spacing` writes its message about the start edge and
returns the edge sequence 0, 8 of `logspace`; it does not fail. -/
theorem spacing_log_zero_start_returns_edges :
    spacing powInt "log" 0 8 1 = ([some 0, some 8], some Diagnostic.nonPositiveStart) := by
  rw [(spacing_log powInt 0 8 1).1]
  norm_num [logspace, fdiv, powInt, List.range', List.replicate]

/-- C15, amended. For a start edge that is not positive, whatever the end edge and for
at least one bin, `spacing` called with "log" or with "logarithmic" writes the message
that the start edge is not positive and returns the array of `logspace`, which has one
cell more than there are bins and the start edge in its first cell. -/
theorem spacing_log_nonpositive_start (pow : ℚ → ℚ → Option ℚ)
    (bin_start_edge bin_end_edge : ℚ) (number_of_bins : Nat)
    (hs : bin_start_edge ≤ 0) (_hn : 1 ≤ number_of_bins) :
    spacing pow "log" bin_start_edge bin_end_edge number_of_bins
        = (logspace pow bin_start_edge bin_end_edge number_of_bins,
            some Diagnostic.nonPositiveStart)
    ∧ spacing pow "logarithmic" bin_start_edge bin_end_edge number_of_bins
        = (logspace pow bin_start_edge bin_end_edge number_of_bins,
            some Diagnostic.nonPositiveStart)
    ∧ (logspace pow bin_start_edge bin_end_edge number_of_bins).length
        = number_of_bins + 1
    ∧ (logspace pow bin_start_edge bin_end_edge number_of_bins).getD 0 none
        = some bin_start_edge := by
  have h := spacing_log pow bin_start_edge bin_end_edge number_of_bins
  rw [if_pos hs] at h
  exact ⟨h.1, h.2, logspace_length pow bin_start_edge bin_end_edge number_of_bins,
    logspace_getD_zero pow bin_start_edge bin_end_edge number_of_bins⟩

/-- Witness of `spacing_log_nonpositive_start`: the start edge -1 with two bins. -/
theorem spacing_log_nonpositive_start_witness :
    spacing powInt "log" (-1) 8 2
        = (logspace powInt (-1) 8 2, some Diagnostic.nonPositiveStart)
    ∧ spacing powInt "logarithmic" (-1) 8 2
        = (logspace powInt (-1) 8 2, some Diagnostic.nonPositiveStart)
    ∧ (logspace powInt (-1) 8 2).length = 2 + 1
    ∧ (logspace powInt (-1) 8 2).getD 0 none = some (-1) :=
  spacing_log_nonpositive_start powInt (-1) 8 2 (by norm_num) (by decide)

end Bindata

namespace amd

/-! ## Lemmas on `getline` and on the pieces of a text -/

theorem getline_cons (d c : Char) (rest : List Char) :
    getline (c :: rest) d
      = if c = d then ([], rest)
        else ((c :: (getline rest d).1), (getline rest d).2) := by
  rw [getline]

theorem piecesRec_cons (d c : Char) (t : List Char) :
    piecesRec d (c :: t)
      = if c = d then (if t = [] then [[]] else [] :: piecesRec d t)
        else (piecesRec d t).modifyHead (fun l => c :: l) := by
  rw [piecesRec]

theorem getline_snd_length_le (d : Char) (s : List Char) :
    (getline s d).2.length ≤ s.length := by
  induction s with
  | nil => simp [getline]
  | cons c t ih =>
    unfold getline
    split_ifs with h
    · simp
    · simp only [List.length_cons]
      omega

theorem getline_snd_length_lt (d : Char) (s : List Char) (hs : s ≠ []) :
    (getline s d).2.length < s.length := by
  cases s with
  | nil => exact absurd rfl hs
  | cons c t =>
    unfold getline
    split_ifs with h
    · simp
    · have := getline_snd_length_le d t
      simp only [List.length_cons]
      omega

theorem piecesRec_ne_nil (d : Char) (s : List Char) : piecesRec d s ≠ [] := by
  induction s with
  | nil => simp [piecesRec]
  | cons c t ih =>
    unfold piecesRec
    split_ifs with h1 h2
    · simp
    · simp
    · cases hp : piecesRec d t with
      | nil => exact absurd hp ih
      | cons a l => simp [List.modifyHead]

theorem piecesRec_eq_getline (d : Char) (s : List Char) :
    piecesRec d s
      = (getline s d).1 ::
          (if (getline s d).2 = [] then [] else piecesRec d (getline s d).2) := by
  induction s with
  | nil => simp [piecesRec, getline]
  | cons c t ih =>
    rw [piecesRec_cons, getline_cons]
    by_cases h : c = d
    · simp only [if_pos h]
      split_ifs <;> rfl
    · simp only [if_neg h]
      rw [ih]
      rfl

theorem dropLast_modifyHead {α : Type} (f : α → α) (l : List α) :
    (l.modifyHead f).dropLast = l.dropLast.modifyHead f := by
  cases l with
  | nil => rfl
  | cons a l =>
    cases l with
    | nil => rfl
    | cons b l => rfl

theorem getLast?_cons_ne (c d : Char) (t : List Char) (h : c ≠ d) :
    ((c :: t).getLast? = some d) ↔ (t.getLast? = some d) := by
  cases t with
  | nil =>
    simp only [List.getLast?_singleton, List.getLast?_nil, Option.some.injEq]
    exact ⟨fun h2 => absurd h2 h, fun h2 => absurd h2 (by simp)⟩
  | cons b l => rw [List.getLast?_cons_cons]

theorem pieces_nil (d : Char) : pieces [] d = [[]] := by
  simp [pieces]

theorem pieces_cons_delim (d : Char) (t : List Char) :
    pieces (d :: t) d = if t = [] then [[]] else [] :: pieces t d := by
  unfold pieces
  cases t with
  | nil => simp [List.splitOn]
  | cons b l =>
    rw [List.getLast?_cons_cons]
    have hsplit : (d :: b :: l).splitOn d = [] :: (b :: l).splitOn d := by
      simp only [List.splitOn]
      rw [List.splitOnP_cons]
      simp
    have hne : (b :: l).splitOn d ≠ [] := List.splitOnP_ne_nil _ _
    rw [hsplit, if_neg (List.cons_ne_nil b l)]
    split_ifs with h
    · rw [List.dropLast_cons_of_ne_nil hne]
    · rfl

theorem pieces_cons_other (c d : Char) (t : List Char) (h : c ≠ d) :
    pieces (c :: t) d = (pieces t d).modifyHead (fun l => c :: l) := by
  unfold pieces
  have hsplit : (c :: t).splitOn d = (t.splitOn d).modifyHead (fun l => c :: l) := by
    simp only [List.splitOn]
    rw [List.splitOnP_cons]
    have : (c == d) = false := by simpa using h
    simp only [this, Bool.false_eq_true, if_false]
  rw [hsplit]
  by_cases hl : t.getLast? = some d
  · rw [if_pos ((getLast?_cons_ne c d t h).mpr hl), if_pos hl, dropLast_modifyHead]
  · rw [if_neg (fun h2 => hl ((getLast?_cons_ne c d t h).mp h2)), if_neg hl]

theorem piecesRec_eq_pieces (d : Char) (s : List Char) : piecesRec d s = pieces s d := by
  induction s with
  | nil => rw [pieces_nil]; rfl
  | cons c t ih =>
    unfold piecesRec
    by_cases h : c = d
    · subst h
      rw [if_pos rfl, pieces_cons_delim, ih]
    · rw [if_neg h, pieces_cons_other c d t h, ih]

/-! ## The iteration over a `RangeOverStream` -/

theorem nextLine_single (d : Char) (s cl : List Char) (e : Bool) :
    RangeOverStream.nextLine { istr := s, delims := [d], isEmpty := e, currentLine := cl }
      = { istr := (getline s d).2, delims := [d], isEmpty := e,
          currentLine := (getline s d).1 } := by
  simp [RangeOverStream.nextLine]

theorem drain_state (d : Char) (fuel : Nat) (line rest : List Char)
    (hfuel : rest.length + 2 ≤ fuel) :
    drain fuel { istr := rest, delims := [d], isEmpty := false, currentLine := line }
      = some (line :: (if rest = [] then [] else piecesRec d rest)) := by
  induction fuel generalizing line rest with
  | zero => omega
  | succ fuel ih =>
    unfold drain
    simp only [RangeOverStream.empty, Bool.false_eq_true, if_false,
      RangeOverStream.front, RangeOverStream.popFront]
    by_cases hr : rest = []
    · subst hr
      simp only [if_true]
      have hf : fuel = (fuel - 1) + 1 := by simp at hfuel; omega
      rw [hf]
      simp [drain, RangeOverStream.empty]
    · simp only [if_neg hr]
      rw [nextLine_single, ih _ _ (by
        have := getline_snd_length_lt d rest hr
        omega)]
      rw [Option.map_some', ← piecesRec_eq_getline]

theorem construct_single (d : Char) (s : List Char) :
    RangeOverStream.construct s [d]
      = some { istr := (getline s d).2, delims := [d], isEmpty := false,
               currentLine := (getline s d).1 } := by
  unfold RangeOverStream.construct
  rw [if_neg (List.cons_ne_nil d []), nextLine_single]

theorem drain_construct (d : Char) (s : List Char) (fuel : Nat)
    (hfuel : s.length + 2 ≤ fuel) :
    drain fuel { istr := (getline s d).2, delims := [d], isEmpty := false,
                 currentLine := (getline s d).1 }
      = some (pieces s d) := by
  rw [drain_state d fuel _ _ (by
      have := getline_snd_length_le d s
      omega), ← piecesRec_eq_getline, piecesRec_eq_pieces]

/-! ## Claim on `RangeOverStream` -/

/-- C20. For a single delimiter character `d` and every text `s`, the construction of a
`RangeOverStream` succeeds, `empty()` is false right after it, and reading `front()` and
calling `popFront()` until `empty()` is true yields, given fuel for `|s| + 2` tests of
`empty()`, exactly the pieces of `s` split on `d`, the final empty piece being left out
when `s` ends with `d`; the empty text yields the single item "". -/
theorem rangeOverStream_yields_pieces (d : Char) (s : List Char) (fuel : Nat)
    (hfuel : s.length + 2 ≤ fuel) :
    ∃ r, RangeOverStream.construct s [d] = some r
      ∧ r.empty = false
      ∧ drain fuel r = some (pieces s d)
      ∧ (s = [] → drain fuel r = some [[]]) := by
  refine ⟨_, construct_single d s, rfl, drain_construct d s fuel hfuel, ?_⟩
  intro hs
  rw [drain_construct d s fuel hfuel, hs, pieces_nil]

/-- Witness of `rangeOverStream_yields_pieces`: the text "a,,b," split on the comma
yields "a", "" and "b". -/
theorem rangeOverStream_yields_pieces_witness :
    pieces ['a', ',', ',', 'b', ','] ',' = [['a'], [], ['b']]
    ∧ ∃ r, RangeOverStream.construct ['a', ',', ',', 'b', ','] [','] = some r
      ∧ r.empty = false
      ∧ drain 7 r = some (pieces ['a', ',', ',', 'b', ','] ',')
      ∧ (['a', ',', ',', 'b', ','] = ([] : List Char) → drain 7 r = some [[]]) :=
  ⟨by decide, rangeOverStream_yields_pieces ',' ['a', ',', ',', 'b', ','] 7 (by decide)⟩

end amd
